import Mathlib

/-!
Verification of the state-transition witness generator
(`crates/trie/trie/src/witness.rs`) against its specification.

Shallow embedding conventions:
* `Nibbles` (nibble paths) are lists of naturals, `Bytes` are byte lists, and
  `B256` (32-byte words: hashes, addresses, roots) are byte lists.
* External collaborators that are pure functions in the source
  (`keccak256`, `TrieNode::decode`, RLP encoding of accounts and storage
  values, the multiproof provider) are passed as explicit function
  parameters; decoding is fallible (`Option`).
* `BTreeMap` becomes a key-sorted association list (`mapInsert` keeps keys
  strictly sorted under the lexicographic order `lexLt`), `HashMap` becomes
  an association list with overwriting insert (`ainsert`); the source's
  unspecified `HashMap` iteration order is fixed explicitly where it occurs.
* Rust panics (index out of bounds, `debug_assert_eq!` failures) are modelled
  as distinguished outcomes (`Failure.indexPanic`, `Failure.assertionFailure`);
  `debug_assert_eq!` is conditional on a `debugAssertions` flag mirroring
  Rust's build-dependent semantics.  Potential divergence of the extension
  resolution loop is modelled by fuel (`Failure.outOfFuel`).
-/

deriving instance DecidableEq for Except

namespace RethWitness

/-- A nibble path (`reth_trie_common::Nibbles`): sequence of half-byte values. -/
abbrev Nibbles := List Nat

/-- Raw byte strings (`alloy_primitives::Bytes` / `Vec<u8>`). -/
abbrev Bytes := List Nat

/-- 32-byte words (`alloy_primitives::B256`): hashes, hashed keys, roots. -/
abbrev B256 := List Nat

/-- Modelled from the spec: the canonical empty-trie root constant
(`EMPTY_ROOT_HASH`, a fixed keccak constant defined outside `src/`); only its
role as one distinguished `B256` value matters for the claims. -/
def EMPTY_ROOT_HASH : B256 := List.replicate 32 0

/-- Strict lexicographic order on nibble paths: the `Ord` instance backing the
source's `BTreeMap<Nibbles, _>` iteration order. -/
def lexLt : Nibbles → Nibbles → Bool
  | [], [] => false
  | [], _ :: _ => true
  | _ :: _, [] => false
  | a :: as', b :: bs' => if a < b then true else if b < a then false else lexLt as' bs'

/-- Boolean prefix test: `isPre p k` holds iff `p` is a prefix of `k`
(Rust `k.starts_with(&p)` on nibble paths). -/
def isPre : Nibbles → Nibbles → Bool
  | [], _ => true
  | _ :: _, [] => false
  | a :: as', b :: bs' => if a = b then isPre as' bs' else false

/-- Overwriting insert into an (unordered) association list; models
`HashMap::insert`. -/
def ainsert {κ α : Type} [DecidableEq κ] : List (κ × α) → κ → α → List (κ × α)
  | [], k, v => [(k, v)]
  | (k', v') :: t, k, v => if k = k' then (k, v) :: t else (k', v') :: ainsert t k v

/-- Association-list lookup; models `HashMap::get` / `BTreeMap::get`. -/
def alookup {κ α : Type} [DecidableEq κ] : List (κ × α) → κ → Option α
  | [], _ => none
  | (k', v') :: t, k => if k = k' then some v' else alookup t k

/-- Association-list removal of the first entry with the given key; models
`HashMap::remove` (returns the removed value and the remaining map). -/
def aremove {κ α : Type} [DecidableEq κ] : List (κ × α) → κ → Option α × List (κ × α)
  | [], _ => (none, [])
  | (k', v') :: t, k =>
    if k = k' then (some v', t)
    else
      let r := aremove t k
      (r.1, (k', v') :: r.2)

/-- Insert into a key-sorted association list, keeping keys strictly sorted
under `lexLt` and overwriting an existing binding; models `BTreeMap::insert`. -/
def mapInsert {α : Type} : List (Nibbles × α) → Nibbles → α → List (Nibbles × α)
  | [], k, v => [(k, v)]
  | (k', v') :: t, k, v =>
    if lexLt k k' then (k, v) :: (k', v') :: t
    else if k = k' then (k, v) :: t
    else (k', v') :: mapInsert t k v

/-- Sortedness invariant of the `BTreeMap` model: keys strictly increasing. -/
def MapSorted {α : Type} (m : List (Nibbles × α)) : Prop :=
  m.Pairwise (fun a b => lexLt a.1 b.1 = true)

/-- `BTreeMap::extend`: insert every entry of `nodes` into `m` in order. -/
def extendMap {α : Type} (m : List (Nibbles × α)) (nodes : List (Nibbles × α)) :
    List (Nibbles × α) :=
  nodes.foldl (fun acc e => mapInsert acc e.1 e.2) m

/-- A branch node's presence mask and child references in mask order
(`reth_trie_common::BranchNode`); the source stores RLP-encoded child
references on a stack, modelled here as the child hashes directly. -/
structure BranchNode where
  state_mask : Nat
  stack : List B256
  deriving DecidableEq, Repr

/-- The three Merkle-Patricia node shapes (`reth_trie_common::TrieNode`). -/
inductive TrieNode where
  | branch (node : BranchNode)
  | extension (key : Nibbles) (child : B256)
  | leaf (key : Nibbles) (value : Bytes)
  deriving DecidableEq, Repr

/-- `itertools::Either<B256, Vec<u8>>`: a branch-child hash reference
(`Left`) or a literal leaf value (`Right`). -/
inductive NodeVal where
  | hash (h : B256)
  | value (v : Bytes)
  deriving DecidableEq, Repr

/-- Failure outcomes of the computation.  `rlpError`, `missingAccount`,
`missingTargetNode` and `proofError` model the source's error values
(`TrieWitnessError`/`StateProofError`); `indexPanic` models the Rust panic on
an out-of-bounds index; `assertionFailure` models a `debug_assert_eq!` panic;
`outOfFuel` models non-termination of the extension-resolution loop. -/
inductive Failure where
  | rlpError
  | missingAccount (address : B256)
  | missingTargetNode (path : Nibbles)
  | proofError
  | indexPanic
  | assertionFailure
  | outOfFuel
  deriving DecidableEq, Repr

/-- `Option`-returning list indexing (used to model stack reads). -/
def nth {α : Type} : List α → Nat → Option α
  | [], _ => none
  | a :: _, 0 => some a
  | _ :: t, n + 1 => nth t n

/-- Index of the first occurrence of `i` (length of the list if absent). -/
def idxOf : Nat → List Nat → Nat
  | _, [] => 0
  | i, x :: t => if x = i then 0 else idxOf i t + 1

/-- `CHILD_INDEX_RANGE`: the branch child indices `0..16`. -/
def CHILD_INDEX_RANGE : List Nat := List.range 16

/-- The set-bit child indices of a 16-bit branch mask, in increasing order. -/
def setBits (mask : Nat) : List Nat :=
  CHILD_INDEX_RANGE.filter (fun i => mask.testBit i)

/-- `branch_node_children` (witness.rs:193-205): the child paths and child
hashes of a branch node, in mask order.  The source walks the indices with a
running stack pointer; equivalently, the set-bit indices are zipped with the
stack (decoded nodes always carry one stack item per set bit). -/
def branch_node_children (prefix' : Nibbles) (node : BranchNode) : List (Nibbles × B256) :=
  ((setBits node.state_mask).zip node.stack).map (fun ih => (prefix' ++ [ih.1], ih.2))

/-- The hash reference of child `i` of a branch node: the stack item at the
position of `i` among the set bits (spec-side view of the child slots). -/
def childHashAt (node : BranchNode) (i : Nat) : Option B256 :=
  nth node.stack (idxOf i (setBits node.state_mask))

/-- Witness accumulator: node hash to raw encoded bytes
(`HashMap<B256, Bytes>`). -/
abbrev WitnessMap := List (B256 × Bytes)

/-- Path-ordered node map (`BTreeMap<Nibbles, Either<B256, Vec<u8>>>`). -/
abbrev TrieNodeMap := List (Nibbles × NodeVal)

/-- One proof: ordered `(path, encoded node)` pairs. -/
abbrev ProofEntries := List (Nibbles × Bytes)

/-- Loop of `target_nodes` (witness.rs:216-243): process proof entries in
order, recording every node in the witness, then decoding it and collecting
sibling hash references (Branch), nothing (Extension), or a stale leaf value
(Leaf).  In the source the Branch arm first evaluates `key[path.len()]`,
which panics when `path.len() >= key.len()`; the Extension arm only updates
the per-iteration local `next_path`, which is dead, so it has no effect. -/
def targetNodesGo (decode : Bytes → Option TrieNode) (keccak : Bytes → B256) (key : Nibbles) :
    ProofEntries → TrieNodeMap → Option WitnessMap →
    Except Failure (TrieNodeMap × Option WitnessMap)
  | [], tn, w => .ok (tn, w)
  | (path, encoded) :: rest, tn, w =>
    let w := w.map (fun wm => ainsert wm (keccak encoded) encoded)
    match decode encoded with
    | none => .error .rlpError
    | some (.branch node) =>
      if path.length < key.length then
        targetNodesGo decode keccak key rest
          ((branch_node_children path node).foldl
            (fun m c => if isPre c.1 key then m else mapInsert m c.1 (.hash c.2)) tn) w
      else .error .indexPanic
    | some (.extension _ _) => targetNodesGo decode keccak key rest tn w
    | some (.leaf lkey lval) =>
      let next_path := path ++ lkey
      targetNodesGo decode keccak key rest
        (if next_path = key then tn else mapInsert tn next_path (.value lval)) w

/-- `target_nodes` (witness.rs:209-250): walk one proof toward `key`,
returning the path-ordered map of sibling references, stale leaf values, and
finally the new `value` at `key` when one is supplied. -/
def target_nodes (decode : Bytes → Option TrieNode) (keccak : Bytes → B256)
    (key : Nibbles) (value : Option Bytes) (proof : ProofEntries)
    (witness : Option WitnessMap) : Except Failure (TrieNodeMap × Option WitnessMap) :=
  match targetNodesGo decode keccak key proof [] witness with
  | .error e => .error e
  | .ok (tn, w) =>
    match value with
    | some v => .ok (mapInsert tn key (.value v), w)
    | none => .ok (tn, w)

/-- Spec-side description of the entries a Branch proof node at `path`
contributes: for every set-bit child index whose induced path is not a prefix
of the target key, the child's hash reference at that path. -/
def branchInserts (key path : Nibbles) (node : BranchNode) : List (Nibbles × NodeVal) :=
  (setBits node.state_mask).filterMap (fun i =>
    if isPre (path ++ [i]) key then none
    else (childHashAt node i).map (fun h => (path ++ [i], NodeVal.hash h)))

/-- Spec-side description of the entries one decoded proof node contributes
to the map returned by `target_nodes`: Branch siblings, nothing for an
Extension, and the stale leaf value when the leaf's full path differs from
the target key. -/
def entryInserts (decode : Bytes → Option TrieNode) (key path : Nibbles) (encoded : Bytes) :
    List (Nibbles × NodeVal) :=
  match decode encoded with
  | some (.branch node) => branchInserts key path node
  | some (.leaf lkey lval) =>
    if path ++ lkey = key then [] else [(path ++ lkey, NodeVal.value lval)]
  | _ => []

/-- All entries contributed by a proof, in processing order. -/
def insertedEntries (decode : Bytes → Option TrieNode) (key : Nibbles) (proof : ProofEntries) :
    List (Nibbles × NodeVal) :=
  proof.flatMap (fun e => entryInserts decode key e.1 e.2)

/-- Modelled from the spec: the streaming hash builder (external
`reth_trie_common::HashBuilder`, not part of `src/`).  Per the spec it "folds
a stream of ordered (path, value) pairs into trie nodes and a final root
hash"; we model its observable state as the current key (the last added
path, which is how the external builder maintains its `key` field) and the
ordered trace of added entries.  The internal trie-node construction is not
modelled; no claim settled here depends on the root hash function itself. -/
structure HashBuilder where
  key : Nibbles := []
  entries : List (Nibbles × NodeVal) := []
  updatesEnabled : Bool := false
  deriving DecidableEq, Repr

/-- `HashBuilder::add_branch`: record a branch-child hash at `path` (the
third argument, `stored_in_database`, does not affect the trace). -/
def HashBuilder.addBranch (hb : HashBuilder) (path : Nibbles) (h : B256)
    (_storedInDatabase : Bool) : HashBuilder :=
  { hb with key := path, entries := hb.entries ++ [(path, NodeVal.hash h)] }

/-- `HashBuilder::add_leaf`: record a leaf value at `path`. -/
def HashBuilder.addLeaf (hb : HashBuilder) (path : Nibbles) (v : Bytes) : HashBuilder :=
  { hb with key := path, entries := hb.entries ++ [(path, NodeVal.value v)] }

/-- Modelled from the spec: a deterministic digest of the ordered fed
entries, standing in for the external incremental trie hashing. -/
def rootDigest (es : List (Nibbles × NodeVal)) : List Nat :=
  es.flatMap (fun e =>
    e.1.length :: e.1 ++
      (match e.2 with
       | .hash h => 0 :: h.length :: h
       | .value v => 1 :: v.length :: v))

/-- `HashBuilder::root`: the empty builder yields the canonical empty-trie
root; otherwise the digest of the fed entries. -/
def HashBuilder.root (hb : HashBuilder) : B256 :=
  if hb.entries.isEmpty then EMPTY_ROOT_HASH else rootDigest hb.entries

/-- `HashBuilder::with_updates`. -/
def HashBuilder.withUpdates (hb : HashBuilder) (b : Bool) : HashBuilder :=
  { hb with updatesEnabled := b }

/-- Retained branch-node updates (`BranchNodeCompact`); their content is
irrelevant here (`retain_updates` is `false` at every call site in scope). -/
abbrev BranchNodeCompact := Unit

/-- `HashBuilder::split`: hand back the builder and the retained updates. -/
def HashBuilder.split (hb : HashBuilder) : HashBuilder × List (Nibbles × BranchNodeCompact) :=
  (hb, [])

/-- First pass of `next_root_from_proofs` (witness.rs:259-265): scanning keys
in order, a key is ignored iff the immediately following key starts with it. -/
def ignoredKeys : List Nibbles → List Nibbles
  | [] => []
  | [_] => []
  | k :: next :: rest => (if isPre k next then [k] else []) ++ ignoredKeys (next :: rest)

/-- The condition (witness.rs:273-277) under which a branch-child hash at
`path` is added directly: the builder's current key starts with the parent
prefix `path[..len-1]`, or the next remaining entry's path does. -/
def nrCond (hb : HashBuilder) (path : Nibbles) (rest : TrieNodeMap) : Bool :=
  let parent := path.take (path.length - 1)
  isPre parent hb.key ||
    (match rest.head? with
     | some nxt => isPre parent nxt.1
     | none => false)

/-- The resolution loop of `next_root_from_proofs` (witness.rs:282-302):
fetch the node at `path` from the missing-node provider, then either expand a
Branch into all of its children, add a Leaf at its full path, or follow an
Extension's suffix and repeat.  The provider is stateful (`FnMut`), modelled
by threading `σ`; the loop is given fuel since a malformed extension chain
would not terminate. -/
def resolveNode {σ : Type} (decode : Bytes → Option TrieNode)
    (provider : σ → Nibbles → Except Failure (Bytes × σ)) (hb : HashBuilder)
    (path : Nibbles) (s : σ) : Nat → Except Failure (HashBuilder × σ)
  | 0 => .error .outOfFuel
  | fuel + 1 =>
    match provider s path with
    | .error e => .error e
    | .ok (node, s') =>
      match decode node with
      | none => .error .rlpError
      | some (.branch bnode) =>
        .ok ((branch_node_children path bnode).foldl
          (fun hb c => hb.addBranch c.1 c.2 false) hb, s')
      | some (.leaf lkey lval) => .ok (hb.addLeaf (path ++ lkey) lval, s')
      | some (.extension ekey _) => resolveNode decode provider hb (path ++ ekey) s' fuel

/-- Main pass of `next_root_from_proofs` (witness.rs:269-309) over the
filtered entries: leaf values are added directly; a hash reference is added
directly when `nrCond` holds and otherwise goes through `resolveNode`. -/
def nextRootGo {σ : Type} (decode : Bytes → Option TrieNode)
    (provider : σ → Nibbles → Except Failure (Bytes × σ)) :
    TrieNodeMap → HashBuilder → σ → Nat → Except Failure (HashBuilder × σ)
  | [], hb, s, _ => .ok (hb, s)
  | (path, .hash bh) :: rest, hb, s, fuel =>
    if nrCond hb path rest then
      nextRootGo decode provider rest (hb.addBranch path bh false) s fuel
    else
      match resolveNode decode provider hb path s fuel with
      | .error e => .error e
      | .ok (hb', s') => nextRootGo decode provider rest hb' s' fuel
  | (path, .value v) :: rest, hb, s, fuel =>
    nextRootGo decode provider rest (hb.addLeaf path v) s fuel

/-- The entries of the input map that `next_root_from_proofs` actually feeds
to the hash builder: those whose path is not in the ignored set. -/
def fedEntries (trie_nodes : TrieNodeMap) : TrieNodeMap :=
  trie_nodes.filter (fun e => decide (e.1 ∉ ignoredKeys (trie_nodes.map Prod.fst)))

/-- `next_root_from_proofs` (witness.rs:253-314): drop every entry whose path
the immediately following path starts with, feed the rest to the hash
builder (falling back to the missing-node provider), and return the root and
retained updates. -/
def next_root_from_proofs {σ : Type} (decode : Bytes → Option TrieNode)
    (trie_nodes : TrieNodeMap) (retain_updates : Bool)
    (provider : σ → Nibbles → Except Failure (Bytes × σ)) (s : σ) (fuel : Nat) :
    Except Failure ((B256 × List (Nibbles × BranchNodeCompact)) × σ) :=
  match nextRootGo decode provider (fedEntries trie_nodes)
      (HashBuilder.withUpdates {} retain_updates) s fuel with
  | .error e => .error e
  | .ok (hb, s') => .ok ((hb.root, (hb.split).2), s')

/-- `reth_primitives::Account`: nonce, balance and code hash (balances are
modelled as naturals; the RLP encoding is an external parameter). -/
structure Account where
  nonce : Nat := 0
  balance : Nat := 0
  bytecodeHash : Option B256 := none
  deriving DecidableEq, Repr

/-- `Account::default()`: all fields defaulted. -/
def defaultAccount : Account := {}

/-- `reth_primitives::HashedStorage`: per-account storage changes. -/
structure HashedStorage where
  wiped : Bool
  storage : List (B256 × Nat)
  deriving DecidableEq, Repr

/-- `HashedPostState`: hashed address to optional account record, and hashed
address to storage changes. -/
structure HashedPostState where
  accounts : List (B256 × Option Account)
  storages : List (B256 × HashedStorage)
  deriving DecidableEq, Repr

/-- `StorageMultiProof`: the storage root at proof time plus the proof
subtree. -/
structure StorageMultiProof where
  root : B256
  subtree : ProofEntries
  deriving DecidableEq, Repr

/-- Modelled from the spec: `StorageMultiProof::default()` (defined outside
`src/`) — the empty storage proof used when an account has no storage
multiproof entry ("default to an empty proof"); its root is the canonical
empty-trie root. -/
def emptyStorageMultiProof : StorageMultiProof :=
  { root := EMPTY_ROOT_HASH, subtree := [] }

/-- `MultiProof`: account-trie proof subtree plus per-account storage
multiproofs. -/
structure MultiProof where
  account_subtree : ProofEntries
  storages : List (B256 × StorageMultiProof)
  deriving DecidableEq, Repr

/-- `Nibbles::unpack`: split each byte into its high and low nibble. -/
def unpackNibbles (b : B256) : Nibbles :=
  b.flatMap (fun x => [x / 16 % 16, x % 16])

/-- `Nibbles::pack`: pack nibble pairs into bytes, right-padding an odd tail
with a zero nibble. -/
def packNibbles : Nibbles → Bytes
  | [] => []
  | [x] => [x * 16]
  | x :: y :: rest => (x * 16 + y) :: packNibbles rest

/-- `key.pack()` followed by `resize(32, 0)` (witness.rs:147-148): the padded
32-byte single-proof target derived from a nibble path. -/
def packPad32 (n : Nibbles) : Bytes :=
  (packNibbles n ++ List.replicate (32 - (packNibbles n).length) 0).take 32

/-- External collaborators of `compute`, passed as pure functions: node
decode and keccak, the two RLP encoders, and the three proof fetches (the
batched multiproof plus the two single-target fallbacks; prefix sets are
captured inside the fetch functions). -/
structure Ctx where
  decode : Bytes → Option TrieNode
  keccak : Bytes → B256
  encodeAccount : Account → B256 → Bytes
  encodeU256 : Nat → Bytes
  fetchMultiproof : List (B256 × List B256) → Except Failure MultiProof
  fetchStorage : B256 → B256 → Except Failure StorageMultiProof
  fetchAccount : B256 → Except Failure MultiProof

/-- The storage missing-node provider closure of `compute`
(witness.rs:145-165): fetch a single-target storage proof for the padded
path, take the subtree node at the requested path (error
`MissingTargetNode` when absent) and record it in the witness. -/
def storageNodeProvider (c : Ctx) (hashedAddress : B256) :
    WitnessMap → Nibbles → Except Failure (Bytes × WitnessMap) :=
  fun wit key =>
    match c.fetchStorage hashedAddress (packPad32 key) with
    | .error e => .error e
    | .ok proof =>
      match alookup proof.subtree key with
      | none => .error (.missingTargetNode key)
      | some node => .ok (node, ainsert wit (c.keccak node) node)

/-- The account missing-node provider closure of `compute`
(witness.rs:169-186): same shape against the account subtree of a
single-target multiproof. -/
def accountNodeProvider (c : Ctx) :
    WitnessMap → Nibbles → Except Failure (Bytes × WitnessMap) :=
  fun wit key =>
    match c.fetchAccount (packPad32 key) with
    | .error e => .error e
    | .ok proof =>
      match alookup proof.account_subtree key with
      | none => .error (.missingTargetNode key)
      | some node => .ok (node, ainsert wit (c.keccak node) node)

/-- The account leaf value built by `compute` (witness.rs:109-116): `none`
when the account record is absent and the storage root (taken from the
account's storage multiproof, defaulted to the empty proof) is the empty-trie
root; otherwise the RLP encoding of the account (fields defaulted when the
record is absent) with that storage root. -/
def accountLeafValue (encodeAccount : Account → B256 → Bytes)
    (account : Option Account) (storageRoot : B256) : Option Bytes :=
  if account.isSome ∨ storageRoot ≠ EMPTY_ROOT_HASH then
    some (encodeAccount (account.getD defaultAccount) storageRoot)
  else none

/-- The storage-slot loop of `compute` (witness.rs:129-142): for each changed
slot, run `target_nodes` against the slot's filtered storage proof with the
slot's encoded new value (zero meaning deletion), extending the storage node
map and the witness. -/
def storageSlotNodesGo (c : Ctx) (storage : Option HashedStorage)
    (smp : StorageMultiProof) :
    List B256 → TrieNodeMap → WitnessMap → Except Failure (TrieNodeMap × WitnessMap)
  | [], tn, wit => .ok (tn, wit)
  | hashedSlot :: rest, tn, wit =>
    let slotKey := unpackNibbles hashedSlot
    let slotValue :=
      match storage.bind (fun s => alookup s.storage hashedSlot) with
      | some v => if v = 0 then none else some (c.encodeU256 v)
      | none => none
    let proof := smp.subtree.filter (fun e => isPre e.1 slotKey)
    match target_nodes c.decode c.keccak slotKey slotValue proof (some wit) with
    | .error e => .error e
    | .ok (nodes, w) =>
      storageSlotNodesGo c storage smp rest (extendMap tn nodes) (w.getD wit)

/-- Running state of `compute`'s account loop: the witness accumulator, the
shared account-level node map, and the remaining per-account storage
multiproofs (the source removes each account's entry as it is visited). -/
structure ComputeSt where
  witness : WitnessMap
  accountTrieNodes : TrieNodeMap
  storagesMP : List (B256 × StorageMultiProof)
  deriving DecidableEq, Repr

/-- The body of `compute`'s account loop (witness.rs:100-165) up to and
including storage-root resolution, returning the multiproof's embedded
storage root, the resolved storage root, and the new state; the
`debug_assert_eq!` comparison between the two roots is applied by
`processAccount`. -/
def processAccountCore (c : Ctx) (fuel : Nat) (state : HashedPostState)
    (accountSubtree : ProofEntries) (st : ComputeSt) (target : B256 × List B256) :
    Except Failure (B256 × B256 × ComputeSt) :=
  let hashedAddress := target.1
  let rm := aremove st.storagesMP hashedAddress
  let smp := rm.1.getD emptyStorageMultiProof
  match alookup state.accounts hashedAddress with
  | none => .error (.missingAccount hashedAddress)
  | some account =>
    let value := accountLeafValue c.encodeAccount account smp.root
    let key := unpackNibbles hashedAddress
    let proof := accountSubtree.filter (fun e => isPre e.1 key)
    match target_nodes c.decode c.keccak key value proof (some st.witness) with
    | .error e => .error e
    | .ok (nodes, w) =>
      let acctNodes := extendMap st.accountTrieNodes nodes
      let wit := w.getD st.witness
      let storage := alookup state.storages hashedAddress
      match storageSlotNodesGo c storage smp target.2 [] wit with
      | .error e => .error e
      | .ok (storageTrieNodes, wit) =>
        match next_root_from_proofs c.decode storageTrieNodes false
            (storageNodeProvider c hashedAddress) wit fuel with
        | .error e => .error e
        | .ok (rootUpdates, wit') =>
          .ok (smp.root, rootUpdates.1, ⟨wit', acctNodes, rm.2⟩)

/-- One account-loop iteration of `compute`, including the
`debug_assert_eq!(storage_multiproof.root, storage_root)` (witness.rs:166),
which panics on mismatch only when debug assertions are enabled. -/
def processAccount (c : Ctx) (debugAssertions : Bool) (fuel : Nat)
    (state : HashedPostState) (accountSubtree : ProofEntries) (st : ComputeSt)
    (target : B256 × List B256) : Except Failure ComputeSt :=
  match processAccountCore c fuel state accountSubtree st target with
  | .error e => .error e
  | .ok (mpRoot, storageRoot, st') =>
    if debugAssertions ∧ mpRoot ≠ storageRoot then .error .assertionFailure
    else .ok st'

/-- The account loop of `compute` over all proof targets. -/
def foldAccounts (c : Ctx) (debugAssertions : Bool) (fuel : Nat)
    (state : HashedPostState) (accountSubtree : ProofEntries) :
    List (B256 × List B256) → ComputeSt → Except Failure ComputeSt
  | [], st => .ok st
  | t :: ts, st =>
    match processAccount c debugAssertions fuel state accountSubtree st t with
    | .error e => .error e
    | .ok st' => foldAccounts c debugAssertions fuel state accountSubtree ts st'

/-- The proof target set of `compute` (witness.rs:81-89): every post-state
account keyed to the empty slot set, overridden by the changed-slot set for
every account with storage changes.  The source collects this into a
`HashMap` whose iteration order is unspecified; the model fixes one order
(storage-less accounts first, then the storage-bearing ones). -/
def proofTargets (state : HashedPostState) : List (B256 × List B256) :=
  (state.accounts.filter (fun e => decide ((alookup state.storages e.1).isNone = true))).map
      (fun e => (e.1, []))
    ++ state.storages.map (fun e => (e.1, e.2.storage.map Prod.fst))

/-- `TrieWitness::compute` (witness.rs:77-189): build the proof targets,
fetch the batched multiproof, process every account (resolving its storage
root), resolve the state root over the accumulated account-level node map,
and return the witness. -/
def compute (c : Ctx) (debugAssertions : Bool) (fuel : Nat)
    (state : HashedPostState) : Except Failure WitnessMap :=
  let targets := proofTargets state
  match c.fetchMultiproof targets with
  | .error e => .error e
  | .ok mp =>
    match foldAccounts c debugAssertions fuel state mp.account_subtree targets
        ⟨[], [], mp.storages⟩ with
    | .error e => .error e
    | .ok st =>
      match next_root_from_proofs c.decode st.accountTrieNodes false
          (accountNodeProvider c) st.witness fuel with
      | .error e => .error e
      | .ok (_, witFinal) => .ok witFinal

/-- `Except.isOk` as a plain function of the model's results. -/
def isOk {α : Type} : Except Failure α → Bool
  | .ok _ => true
  | .error _ => false

/-- Concrete node decoder used by witness instances: a small node table. -/
def dec0 : Bytes → Option TrieNode := fun b =>
  if b = [1] then some (.branch ⟨36, [[10], [11]]⟩)
  else if b = [2] then some (.extension [3] [12])
  else if b = [3] then some (.leaf [7] [13])
  else none

/-- Concrete hash used by witness instances: injective tagging. -/
def kec0 : Bytes → B256 := fun b => 0 :: b

/-- Concrete hash used by witness instances needing definitional
injectivity. -/
def kec1 : Bytes → B256 := fun b => b


/-- Concrete external context for compute-level witnesses: trivial encoders,
an empty batched multiproof, and empty single-target proofs. -/
def c0 : Ctx where
  decode := dec0
  keccak := kec0
  encodeAccount := fun _ r => 100 :: r
  encodeU256 := fun v => [v]
  fetchMultiproof := fun _ => .ok ⟨[], []⟩
  fetchStorage := fun _ _ => .ok ⟨EMPTY_ROOT_HASH, []⟩
  fetchAccount := fun _ => .ok ⟨[], []⟩

/-- Concrete decoder for the missing-target-node scenario: one branch node
with children at nibbles 3 and 7. -/
def dec1 : Bytes → Option TrieNode := fun b =>
  if b = [21] then some (.branch ⟨136, [[31], [32]]⟩) else none

/-- Concrete context whose batched multiproof carries one storage branch
node with an isolated sibling, and whose single-target storage proofs are
empty, so the fallback lookup cannot resolve any path. -/
def c1 : Ctx where
  decode := dec1
  keccak := kec0
  encodeAccount := fun _ r => 100 :: r
  encodeU256 := fun v => [v]
  fetchMultiproof := fun _ => .ok ⟨[], [([171], ⟨[2], [([1, 2], [21])]⟩)]⟩
  fetchStorage := fun _ _ => .ok ⟨EMPTY_ROOT_HASH, []⟩
  fetchAccount := fun _ => .ok ⟨[], []⟩

/-- Concrete context whose batched multiproof embeds storage root `[1]`
(distinct from the canonical empty root) for the only account. -/
def c2 : Ctx where
  decode := dec0
  keccak := kec0
  encodeAccount := fun _ r => 100 :: r
  encodeU256 := fun v => [v]
  fetchMultiproof := fun _ => .ok ⟨[], [([171], ⟨[1], []⟩)]⟩
  fetchStorage := fun _ _ => .ok ⟨EMPTY_ROOT_HASH, []⟩
  fetchAccount := fun _ => .ok ⟨[], []⟩

/-- Post-state with a single touched account and no storage changes. -/
def state0 : HashedPostState := ⟨[([171], some {})], []⟩

/-- Post-state with a storage change for an address that has no account
record entry. -/
def state1 : HashedPostState := ⟨[], [([171], ⟨false, [([1], 1)]⟩)]⟩

/-- Post-state with one account and one deleted storage slot whose proof
walks through the branch node of `c1`. -/
def state8 : HashedPostState := ⟨[([171], some {})], [([171], ⟨false, [([18, 48], 0)]⟩)]⟩


/-! ### Order and prefix lemmas -/

theorem lexLt_cons_iff {x y : Nat} {xs ys : Nibbles} :
    lexLt (x :: xs) (y :: ys) = true ↔ x < y ∨ (x = y ∧ lexLt xs ys = true) := by
  by_cases h : x < y
  · simp [lexLt, h]
  · by_cases h' : y < x
    · have hne : x ≠ y := by omega
      simp [lexLt, h, h', hne]
    · have hxy : x = y := by omega
      simp [lexLt, h, h', hxy]

theorem lexLt_irrefl (a : Nibbles) : lexLt a a = false := by
  induction a with
  | nil => rfl
  | cons x xs ih => simp [lexLt, ih]

theorem lexLt_ne {a b : Nibbles} (h : lexLt a b = true) : a ≠ b := by
  intro heq
  subst heq
  simp [lexLt_irrefl] at h

theorem lexLt_trans {a b c : Nibbles} (h1 : lexLt a b = true) (h2 : lexLt b c = true) :
    lexLt a c = true := by
  induction a generalizing b c with
  | nil =>
    cases b with
    | nil => simp [lexLt] at h1
    | cons y ys =>
      cases c with
      | nil => simp [lexLt] at h2
      | cons z zs => simp [lexLt]
  | cons x xs ih =>
    cases b with
    | nil => simp [lexLt] at h1
    | cons y ys =>
      cases c with
      | nil => simp [lexLt] at h2
      | cons z zs =>
        rw [lexLt_cons_iff] at h1 h2 ⊢
        rcases h1 with h1 | ⟨rfl, h1⟩
        · rcases h2 with h2 | ⟨rfl, h2⟩
          · exact Or.inl (Nat.lt_trans h1 h2)
          · exact Or.inl h1
        · rcases h2 with h2 | ⟨rfl, h2⟩
          · exact Or.inl h2
          · exact Or.inr ⟨rfl, ih h1 h2⟩

theorem lexLt_total (a b : Nibbles) : lexLt a b = true ∨ a = b ∨ lexLt b a = true := by
  induction a generalizing b with
  | nil =>
    cases b with
    | nil => exact Or.inr (Or.inl rfl)
    | cons y ys => exact Or.inl (by simp [lexLt])
  | cons x xs ih =>
    cases b with
    | nil => exact Or.inr (Or.inr (by simp [lexLt]))
    | cons y ys =>
      rcases Nat.lt_trichotomy x y with h | h | h
      · exact Or.inl (lexLt_cons_iff.mpr (Or.inl h))
      · subst h
        rcases ih ys with h' | h' | h'
        · exact Or.inl (lexLt_cons_iff.mpr (Or.inr ⟨rfl, h'⟩))
        · exact Or.inr (Or.inl (by rw [h']))
        · exact Or.inr (Or.inr (lexLt_cons_iff.mpr (Or.inr ⟨rfl, h'⟩)))
      · exact Or.inr (Or.inr (lexLt_cons_iff.mpr (Or.inl h)))

theorem isPre_refl (a : Nibbles) : isPre a a = true := by
  induction a with
  | nil => rfl
  | cons x xs ih => simp [isPre, ih]

theorem isPre_cons_iff {x y : Nat} {xs ys : Nibbles} :
    isPre (x :: xs) (y :: ys) = true ↔ x = y ∧ isPre xs ys = true := by
  by_cases h : x = y
  · simp [isPre, h]
  · simp [isPre, h]

theorem isPre_nil_right {a : Nibbles} (h : isPre a [] = true) : a = [] := by
  cases a with
  | nil => rfl
  | cons x xs => simp [isPre] at h

/-- A prefix is lexicographically at most its extension. -/
theorem isPre_lexLe {a b : Nibbles} (h : isPre a b = true) :
    a = b ∨ lexLt a b = true := by
  induction a generalizing b with
  | nil =>
    cases b with
    | nil => exact Or.inl rfl
    | cons y ys => exact Or.inr (by simp [lexLt])
  | cons x xs ih =>
    cases b with
    | nil => simp [isPre] at h
    | cons y ys =>
      rcases isPre_cons_iff.mp h with ⟨rfl, h'⟩
      rcases ih h' with h'' | h''
      · exact Or.inl (by rw [h''])
      · exact Or.inr (lexLt_cons_iff.mpr (Or.inr ⟨rfl, h''⟩))

/-- Sandwich: a path lying lexicographically between a path and one of its
extensions itself extends that path. -/
theorem isPre_of_between {a b c : Nibbles}
    (h1 : a = b ∨ lexLt a b = true) (h2 : b = c ∨ lexLt b c = true)
    (h3 : isPre a c = true) : isPre a b = true := by
  induction a generalizing b c with
  | nil => simp [isPre]
  | cons x xs ih =>
    cases c with
    | nil => simp [isPre] at h3
    | cons z zs =>
      rcases isPre_cons_iff.mp h3 with ⟨rfl, h3'⟩
      rcases h1 with rfl | h1
      · exact isPre_refl _
      · cases b with
        | nil => simp [lexLt] at h1
        | cons y ys =>
          rcases lexLt_cons_iff.mp h1 with hxy | ⟨rfl, h1'⟩
          · rcases h2 with heq | h2
            · injection heq with hz _
              omega
            · rcases lexLt_cons_iff.mp h2 with hyz | ⟨hzy, _⟩
              · omega
              · omega
          · rcases h2 with heq | h2
            · injection heq with _ htl
              subst htl
              exact isPre_cons_iff.mpr ⟨rfl, h3'⟩
            · rcases lexLt_cons_iff.mp h2 with hyz | ⟨_, h2'⟩
              · omega
              · exact isPre_cons_iff.mpr ⟨rfl, ih (Or.inr h1') (Or.inr h2') h3'⟩

/-! ### Sorted-map lemmas -/

theorem mapInsert_nil {α : Type} (k : Nibbles) (v : α) : mapInsert [] k v = [(k, v)] := rfl

theorem mapInsert_cons_lt {α : Type} {k k' : Nibbles} (h : lexLt k k' = true)
    (v v' : α) (t : List (Nibbles × α)) :
    mapInsert ((k', v') :: t) k v = (k, v) :: (k', v') :: t := by
  simp [mapInsert, h]

theorem mapInsert_cons_eq {α : Type} (k : Nibbles) (v v' : α) (t : List (Nibbles × α)) :
    mapInsert ((k, v') :: t) k v = (k, v) :: t := by
  simp [mapInsert, lexLt_irrefl]

theorem mapInsert_cons_gt {α : Type} {k k' : Nibbles} (h1 : ¬lexLt k k' = true)
    (h2 : k ≠ k') (v v' : α) (t : List (Nibbles × α)) :
    mapInsert ((k', v') :: t) k v = (k', v') :: mapInsert t k v := by
  simp [mapInsert, h1, h2]

theorem mapSorted_tail {α : Type} {e : Nibbles × α} {t : List (Nibbles × α)}
    (hs : MapSorted (e :: t)) : MapSorted t :=
  (List.pairwise_cons.mp hs).2

theorem mapSorted_head_lt {α : Type} {e : Nibbles × α} {t : List (Nibbles × α)}
    (hs : MapSorted (e :: t)) {b : Nibbles × α} (hb : b ∈ t) : lexLt e.1 b.1 = true :=
  (List.pairwise_cons.mp hs).1 b hb

/-- Every key bound in a sorted map is the head key or above it. -/
theorem mapSorted_key_ge {α : Type} {e : Nibbles × α} {t : List (Nibbles × α)}
    (hs : MapSorted (e :: t)) {b : Nibbles × α} (hb : b ∈ e :: t) :
    e.1 = b.1 ∨ lexLt e.1 b.1 = true := by
  rcases List.mem_cons.mp hb with rfl | hb'
  · exact Or.inl rfl
  · exact Or.inr (mapSorted_head_lt hs hb')

theorem mem_mapInsert_weak {α : Type} {m : List (Nibbles × α)} {k : Nibbles} {v : α}
    {b : Nibbles × α} (h : b ∈ mapInsert m k v) : b = (k, v) ∨ b ∈ m := by
  induction m with
  | nil => simpa [mapInsert] using h
  | cons e t ih =>
    obtain ⟨k', v'⟩ := e
    by_cases hlt : lexLt k k' = true
    · rw [mapInsert_cons_lt hlt] at h
      rcases List.mem_cons.mp h with rfl | h'
      · exact Or.inl rfl
      · exact Or.inr h'
    · by_cases heq : k = k'
      · subst heq
        rw [mapInsert_cons_eq] at h
        rcases List.mem_cons.mp h with rfl | h'
        · exact Or.inl rfl
        · exact Or.inr (List.mem_cons_of_mem _ h')
      · rw [mapInsert_cons_gt hlt heq] at h
        rcases List.mem_cons.mp h with rfl | h'
        · exact Or.inr (List.mem_cons_self _ _)
        · rcases ih h' with h'' | h''
          · exact Or.inl h''
          · exact Or.inr (List.mem_cons_of_mem _ h'')

theorem mapSorted_mapInsert {α : Type} {m : List (Nibbles × α)} (hs : MapSorted m)
    (k : Nibbles) (v : α) : MapSorted (mapInsert m k v) := by
  induction m with
  | nil => simp [mapInsert, MapSorted]
  | cons e t ih =>
    obtain ⟨k', v'⟩ := e
    by_cases hlt : lexLt k k' = true
    · rw [mapInsert_cons_lt hlt]
      refine List.pairwise_cons.mpr ⟨?_, hs⟩
      intro b hb
      rcases mapSorted_key_ge hs hb with heq | hlt'
      · exact heq ▸ hlt
      · exact lexLt_trans hlt hlt'
    · by_cases heq : k = k'
      · subst heq
        rw [mapInsert_cons_eq]
        refine List.pairwise_cons.mpr ⟨?_, mapSorted_tail hs⟩
        intro b hb
        exact mapSorted_head_lt hs hb
      · rw [mapInsert_cons_gt hlt heq]
        refine List.pairwise_cons.mpr ⟨?_, ih (mapSorted_tail hs)⟩
        intro b hb
        rcases mem_mapInsert_weak hb with rfl | hb'
        · rcases lexLt_total k k' with h | h | h
          · exact absurd h hlt
          · exact absurd h heq
          · exact h
        · exact mapSorted_head_lt hs hb'

theorem mem_mapInsert {α : Type} {m : List (Nibbles × α)} (hs : MapSorted m)
    {k q : Nibbles} {v w : α} :
    (q, w) ∈ mapInsert m k v ↔ (q = k ∧ w = v) ∨ ((q, w) ∈ m ∧ q ≠ k) := by
  induction m with
  | nil =>
    constructor
    · intro h
      rcases List.mem_singleton.mp h with heq
      injection heq with h1 h2
      exact Or.inl ⟨h1, h2⟩
    · rintro (⟨rfl, rfl⟩ | ⟨hmem, _⟩)
      · exact List.mem_singleton.mpr rfl
      · exact absurd hmem (List.not_mem_nil _)
  | cons e t ih =>
    obtain ⟨k', v'⟩ := e
    by_cases hlt : lexLt k k' = true
    · rw [mapInsert_cons_lt hlt]
      constructor
      · intro hmem
        rcases List.mem_cons.mp hmem with heq | hmem'
        · injection heq with h1 h2
          exact Or.inl ⟨h1, h2⟩
        · refine Or.inr ⟨hmem', ?_⟩
          intro rflqk
          subst rflqk
          rcases mapSorted_key_ge hs hmem' with heq | hlt'
          · have heq' : k' = q := heq
            subst heq'
            simp [lexLt_irrefl] at hlt
          · exact absurd (lexLt_trans hlt hlt') (by simp [lexLt_irrefl])
      · intro hmem
        rcases hmem with ⟨rfl, rfl⟩ | ⟨hmem', _⟩
        · exact List.mem_cons_self _ _
        · exact List.mem_cons_of_mem _ hmem'
    · by_cases heq : k = k'
      · subst heq
        rw [mapInsert_cons_eq]
        constructor
        · intro hmem
          rcases List.mem_cons.mp hmem with heqm | hmem'
          · injection heqm with h1 h2
            exact Or.inl ⟨h1, h2⟩
          · refine Or.inr ⟨List.mem_cons_of_mem _ hmem', ?_⟩
            intro rflqk
            subst rflqk
            exact absurd (mapSorted_head_lt hs hmem') (by simp [lexLt_irrefl])
        · rintro (⟨rfl, rfl⟩ | ⟨hmem', hne⟩)
          · exact List.mem_cons_self _ _
          · rcases List.mem_cons.mp hmem' with heqm | hmem''
            · injection heqm with h1 _
              exact absurd h1 hne
            · exact List.mem_cons_of_mem _ hmem''
      · rw [mapInsert_cons_gt hlt heq]
        constructor
        · intro hmem
          rcases List.mem_cons.mp hmem with heqm | hmem'
          · injection heqm with h1 h2
            subst h1
            subst h2
            exact Or.inr ⟨List.mem_cons_self _ _, Ne.symm heq⟩
          · rcases (ih (mapSorted_tail hs)).mp hmem' with ⟨rfl, rfl⟩ | ⟨hmem'', hne⟩
            · exact Or.inl ⟨rfl, rfl⟩
            · exact Or.inr ⟨List.mem_cons_of_mem _ hmem'', hne⟩
        · rintro (⟨rfl, rfl⟩ | ⟨hmem', hne⟩)
          · exact List.mem_cons_of_mem _ ((ih (mapSorted_tail hs)).mpr (Or.inl ⟨rfl, rfl⟩))
          · rcases List.mem_cons.mp hmem' with heqm | hmem''
            · exact heqm ▸ List.mem_cons_self _ _
            · exact List.mem_cons_of_mem _
                ((ih (mapSorted_tail hs)).mpr (Or.inr ⟨hmem'', hne⟩))

theorem mapKeys_mapInsert_perm {α : Type} {m : List (Nibbles × α)} {k : Nibbles}
    (h : k ∉ m.map Prod.fst) (v : α) :
    ((mapInsert m k v).map Prod.fst).Perm (k :: m.map Prod.fst) := by
  induction m with
  | nil => simp [mapInsert]
  | cons e t ih =>
    obtain ⟨k', v'⟩ := e
    have hk' : k ≠ k' := by
      intro rflk
      exact h (by simp [rflk])
    by_cases hlt : lexLt k k' = true
    · rw [mapInsert_cons_lt hlt]
      simp
    · rw [mapInsert_cons_gt hlt hk']
      have hkt : k ∉ t.map Prod.fst := fun hmem => h (by simp [hmem])
      have step1 : ((k', v') :: mapInsert t k v).map Prod.fst
          = k' :: (mapInsert t k v).map Prod.fst := by simp
      have step2 : (k' :: (mapInsert t k v).map Prod.fst).Perm (k' :: k :: t.map Prod.fst) :=
        List.Perm.cons _ (ih hkt)
      have step3 : (k' :: k :: t.map Prod.fst).Perm (k :: k' :: t.map Prod.fst) :=
        List.Perm.swap _ _ _
      rw [step1]
      exact (step2.trans step3).trans (by simp)

theorem mem_foldl_mapInsert {α : Type} (l : List (Nibbles × α)) :
    ∀ (m : List (Nibbles × α)), MapSorted m →
    (m.map Prod.fst ++ l.map Prod.fst).Nodup →
    ∀ (q : Nibbles) (w : α),
      ((q, w) ∈ l.foldl (fun acc e => mapInsert acc e.1 e.2) m ↔ (q, w) ∈ m ∨ (q, w) ∈ l) := by
  induction l with
  | nil => simp
  | cons e tl ih =>
    intro m hs hnd q w
    obtain ⟨k, v⟩ := e
    have hknm : k ∉ m.map Prod.fst := by
      rcases List.nodup_append.mp hnd with ⟨_, _, hdisj⟩
      intro hmem
      exact hdisj hmem (by simp)
    have hnd' : ((mapInsert m k v).map Prod.fst ++ tl.map Prod.fst).Nodup := by
      have hperm : ((mapInsert m k v).map Prod.fst ++ tl.map Prod.fst).Perm
          ((k :: m.map Prod.fst) ++ tl.map Prod.fst) :=
        List.Perm.append_right _ (mapKeys_mapInsert_perm hknm v)
      have hperm2 : (m.map Prod.fst ++ (k :: tl.map Prod.fst)).Perm
          (k :: (m.map Prod.fst ++ tl.map Prod.fst)) := List.perm_middle
      have hnd2 : (k :: (m.map Prod.fst ++ tl.map Prod.fst)).Nodup :=
        hperm2.nodup_iff.mp (by simpa using hnd)
      exact hperm.nodup_iff.mpr (by simpa using hnd2)
    have hres := ih (mapInsert m k v) (mapSorted_mapInsert hs k v) hnd' q w
    simp only [List.foldl_cons] at hres ⊢
    rw [hres, mem_mapInsert hs]
    constructor
    · rintro ((⟨rfl, rfl⟩ | ⟨hm, _⟩) | htl)
      · exact Or.inr (List.mem_cons_self _ _)
      · exact Or.inl hm
      · exact Or.inr (List.mem_cons_of_mem _ htl)
    · rintro (hm | hetl)
      · have hqk : q ≠ k := by
          intro rflqk
          subst rflqk
          exact hknm (List.mem_map_of_mem Prod.fst hm)
        exact Or.inl (Or.inr ⟨hm, hqk⟩)
      · rcases List.mem_cons.mp hetl with heqm | htl
        · injection heqm with h1 h2
          exact Or.inl (Or.inl ⟨h1, h2⟩)
        · exact Or.inr htl

/-! ### Hash-map (association list) lemmas -/

theorem alookup_ainsert_self {κ α : Type} [DecidableEq κ] (m : List (κ × α)) (k : κ) (v : α) :
    alookup (ainsert m k v) k = some v := by
  induction m with
  | nil => simp [ainsert, alookup]
  | cons e t ih =>
    obtain ⟨k', v'⟩ := e
    by_cases h : k = k'
    · simp [ainsert, alookup, h]
    · simp [ainsert, alookup, h, ih]

theorem alookup_ainsert_ne {κ α : Type} [DecidableEq κ] (m : List (κ × α)) {k k' : κ}
    (h : k ≠ k') (v : α) : alookup (ainsert m k' v) k = alookup m k := by
  induction m with
  | nil => simp [ainsert, alookup, h]
  | cons e t ih =>
    obtain ⟨k'', v''⟩ := e
    by_cases h' : k' = k''
    · subst h'
      simp [ainsert, alookup, h]
    · by_cases h'' : k = k''
      · simp [ainsert, alookup, h', h'']
      · simp [ainsert, alookup, h', h'', ih]

/-! ### Branch-children lemmas -/

theorem setBits_nodup (mask : Nat) : (setBits mask).Nodup :=
  (List.nodup_range 16).filter _

/-- On a duplicate-free index list, zipping with a stack pairs each index
with the stack slot at that index's position. -/
theorem zip_eq_filterMap_nth {β : Type} (l : List Nat) (st : List β) (hnd : l.Nodup) :
    l.zip st = l.filterMap (fun i => (nth st (idxOf i l)).map (fun hh => (i, hh))) := by
  induction l generalizing st with
  | nil => simp
  | cons x t ih =>
    rcases List.nodup_cons.mp hnd with ⟨hx, hnd'⟩
    cases st with
    | nil =>
      rw [List.zip_nil_right]
      symm
      rw [List.filterMap_eq_nil_iff]
      intro a _
      simp [nth]
    | cons hh st' =>
      have hhead :
          List.filterMap (fun i => (nth (hh :: st') (idxOf i (x :: t))).map (fun h2 => (i, h2)))
              (x :: t)
            = (x, hh) ::
              List.filterMap (fun i => (nth (hh :: st') (idxOf i (x :: t))).map (fun h2 => (i, h2))) t := by
        simp [List.filterMap_cons, idxOf, nth]
      have hcongr :
          List.filterMap (fun i => (nth (hh :: st') (idxOf i (x :: t))).map (fun h2 => (i, h2))) t
            = List.filterMap (fun i => (nth st' (idxOf i t)).map (fun h2 => (i, h2))) t := by
        apply List.filterMap_congr
        intro a ha
        have hax : x ≠ a := fun heq => hx (heq ▸ ha)
        simp [idxOf, nth, hax]
      rw [List.zip_cons_cons, hhead, hcongr, ih st' hnd']

/-- The conditional sibling filter over `branch_node_children` yields exactly
the spec-side `branchInserts` entries. -/
theorem children_filterMap_eq (key p : Nibbles) (node : BranchNode) :
    (branch_node_children p node).filterMap
        (fun c => if isPre c.1 key then none else some (c.1, NodeVal.hash c.2))
      = branchInserts key p node := by
  unfold branch_node_children branchInserts childHashAt
  rw [zip_eq_filterMap_nth _ _ (setBits_nodup _), List.filterMap_map, List.filterMap_filterMap]
  apply List.filterMap_congr
  intro i _
  cases hnth : nth node.stack (idxOf i (setBits node.state_mask)) with
  | none => by_cases hp : isPre (p ++ [i]) key = true <;> simp [hnth, hp]
  | some h2 => by_cases hp : isPre (p ++ [i]) key = true <;> simp [hnth, hp]

/-- A conditional-insert fold equals a plain-insert fold over the filtered
entries. -/
theorem foldl_children_insert (children : List (Nibbles × B256)) (key : Nibbles) :
    ∀ m : TrieNodeMap,
      children.foldl
          (fun m c => if isPre c.1 key then m else mapInsert m c.1 (NodeVal.hash c.2)) m
        = (children.filterMap
            (fun c => if isPre c.1 key then none else some (c.1, NodeVal.hash c.2))).foldl
            (fun m e => mapInsert m e.1 e.2) m := by
  induction children with
  | nil =>
    intro m
    rfl
  | cons c t ih =>
    intro m
    by_cases hp : isPre c.1 key = true <;> simp [hp, ih]

theorem mapSorted_foldl_mapInsert {α : Type} (l : List (Nibbles × α)) :
    ∀ m : List (Nibbles × α), MapSorted m →
      MapSorted (l.foldl (fun acc e => mapInsert acc e.1 e.2) m) := by
  induction l with
  | nil =>
    intro m hs
    exact hs
  | cons e t ih =>
    intro m hs
    exact ih _ (mapSorted_mapInsert hs e.1 e.2)

/-! ### Shape lemmas for `target_nodes` -/

/-- A successful `targetNodesGo` run accumulates exactly the
`insertedEntries` of the processed proof into the node map. -/
theorem targetNodesGo_ok_tn (decode : Bytes → Option TrieNode) (keccak : Bytes → B256)
    (key : Nibbles) :
    ∀ (proof : ProofEntries) (tn : TrieNodeMap) (w : Option WitnessMap)
      (tn' : TrieNodeMap) (w' : Option WitnessMap),
      targetNodesGo decode keccak key proof tn w = .ok (tn', w') →
      tn' = (insertedEntries decode key proof).foldl (fun m e => mapInsert m e.1 e.2) tn := by
  intro proof
  induction proof with
  | nil =>
    intro tn w tn' w' h
    simp only [targetNodesGo] at h
    injection h with h
    injection h with h1 h2
    subst h1
    simp [insertedEntries]
  | cons e rest ih =>
    intro tn w tn' w' h
    obtain ⟨path, encoded⟩ := e
    simp only [targetNodesGo] at h
    split at h
    next hdec =>
      exact Except.noConfusion h
    next bnode hdec =>
      split at h
      next hlen =>
        rw [ih _ _ _ _ h]
        simp only [insertedEntries, List.flatMap_cons, List.foldl_append, entryInserts, hdec]
        rw [foldl_children_insert, children_filterMap_eq]
      next hlen =>
        exact Except.noConfusion h
    next ekey child hdec =>
      rw [ih _ _ _ _ h]
      simp [insertedEntries, entryInserts, hdec]
    next lkey lval hdec =>
      by_cases hkey : path ++ lkey = key
      · rw [if_pos hkey] at h
        rw [ih _ _ _ _ h]
        simp [insertedEntries, entryInserts, hdec, hkey]
      · rw [if_neg hkey] at h
        rw [ih _ _ _ _ h]
        simp [insertedEntries, entryInserts, hdec, hkey]

/-- A successful `targetNodesGo` run given a witness map records every proof
node in it, keyed by its keccak hash, in order. -/
theorem targetNodesGo_ok_wit (decode : Bytes → Option TrieNode) (keccak : Bytes → B256)
    (key : Nibbles) :
    ∀ (proof : ProofEntries) (tn : TrieNodeMap) (wm : WitnessMap)
      (tn' : TrieNodeMap) (w' : Option WitnessMap),
      targetNodesGo decode keccak key proof tn (some wm) = .ok (tn', w') →
      w' = some (proof.foldl (fun m e => ainsert m (keccak e.2) e.2) wm) := by
  intro proof
  induction proof with
  | nil =>
    intro tn wm tn' w' h
    simp only [targetNodesGo] at h
    injection h with h
    injection h with h1 h2
    subst h2
    rfl
  | cons e rest ih =>
    intro tn wm tn' w' h
    obtain ⟨path, encoded⟩ := e
    simp only [targetNodesGo, Option.map_some] at h
    split at h
    next hdec =>
      exact Except.noConfusion h
    next bnode hdec =>
      split at h
      next hlen =>
        exact ih _ _ _ _ h
      next hlen =>
        exact Except.noConfusion h
    next ekey child hdec =>
      exact ih _ _ _ _ h
    next lkey lval hdec =>
      by_cases hkey : path ++ lkey = key
      · rw [if_pos hkey] at h
        exact ih _ _ _ _ h
      · rw [if_neg hkey] at h
        exact ih _ _ _ _ h

/-- `targetNodesGo` never yields the index panic when every Branch-decoding
entry's path is strictly shorter than the target key. -/
theorem targetNodesGo_no_panic (decode : Bytes → Option TrieNode) (keccak : Bytes → B256)
    (key : Nibbles) :
    ∀ (proof : ProofEntries) (tn : TrieNodeMap) (w : Option WitnessMap),
      (∀ p e, (p, e) ∈ proof → ∀ b, decode e = some (.branch b) → p.length < key.length) →
      targetNodesGo decode keccak key proof tn w ≠ .error .indexPanic := by
  intro proof
  induction proof with
  | nil =>
    intro tn w _ h
    simp only [targetNodesGo] at h
    exact Except.noConfusion h
  | cons e rest ih =>
    intro tn w hpre h
    obtain ⟨path, encoded⟩ := e
    simp only [targetNodesGo] at h
    have hrest : ∀ p e2, (p, e2) ∈ rest → ∀ b, decode e2 = some (.branch b) →
        p.length < key.length := by
      intro p e2 hmem b hb
      exact hpre p e2 (List.mem_cons_of_mem _ hmem) b hb
    split at h
    next hdec =>
      simp at h
    next bnode hdec =>
      have hlen : path.length < key.length :=
        hpre path encoded (List.mem_cons_self _ _) bnode hdec
      rw [if_pos hlen] at h
      exact ih _ _ hrest h
    next ekey child hdec =>
      exact ih _ _ hrest h
    next lkey lval hdec =>
      by_cases hkey : path ++ lkey = key
      · rw [if_pos hkey] at h
        exact ih _ _ hrest h
      · rw [if_neg hkey] at h
        exact ih _ _ hrest h

theorem mem_insertedEntries {decode : Bytes → Option TrieNode} {key : Nibbles}
    {proof : ProofEntries} {qv : Nibbles × NodeVal} :
    qv ∈ insertedEntries decode key proof ↔
      ∃ p e, (p, e) ∈ proof ∧ qv ∈ entryInserts decode key p e := by
  simp only [insertedEntries, List.mem_flatMap]
  constructor
  · rintro ⟨a, ha, hqv⟩
    exact ⟨a.1, a.2, ha, hqv⟩
  · rintro ⟨p, e, hmem, hqv⟩
    exact ⟨(p, e), hmem, hqv⟩

/-- The target key itself is never among a proof's contributed entries:
branch contributions are non-prefixes of the key and the stale-leaf
contribution is guarded to differ from it. -/
theorem key_notin_insertedEntries (decode : Bytes → Option TrieNode) (key : Nibbles)
    (proof : ProofEntries) (v : NodeVal) :
    (key, v) ∉ insertedEntries decode key proof := by
  intro hmem
  rcases mem_insertedEntries.mp hmem with ⟨p, e, _, hqv⟩
  unfold entryInserts at hqv
  split at hqv
  next bnode hdec =>
    unfold branchInserts at hqv
    rcases List.mem_filterMap.mp hqv with ⟨i, _, hi⟩
    by_cases hp : isPre (p ++ [i]) key = true
    · rw [if_pos hp] at hi
      exact Option.noConfusion hi
    · rw [if_neg hp] at hi
      cases hch : childHashAt bnode i with
      | none =>
        rw [hch] at hi
        exact Option.noConfusion hi
      | some h2 =>
        rw [hch] at hi
        injection hi with hi
        injection hi with hi1 hi2
        rw [hi1] at hp
        exact hp (isPre_refl key)
  next lkey lval hdec =>
    by_cases hkey : p ++ lkey = key
    · rw [if_pos hkey] at hqv
      exact (List.not_mem_nil _) hqv
    · rw [if_neg hkey] at hqv
      rcases List.mem_singleton.mp hqv with heq
      injection heq with h1 h2
      exact hkey h1.symm
  next hother =>
    exact (List.not_mem_nil _) hqv


/-! ### Witness-map completeness helpers -/

theorem alookup_foldl_ainsert_preserve (keccak : Bytes → B256) :
    ∀ (l : List (Nibbles × Bytes)) (wm : WitnessMap) (v : Bytes),
      alookup wm (keccak v) = some v →
      (∀ p e, (p, e) ∈ l → keccak e = keccak v → e = v) →
      alookup (l.foldl (fun m x => ainsert m (keccak x.2) x.2) wm) (keccak v) = some v := by
  intro l
  induction l with
  | nil =>
    intro wm v hbase _
    exact hbase
  | cons x t ih =>
    intro wm v hbase hcomp
    simp only [List.foldl_cons]
    by_cases hkey : keccak x.2 = keccak v
    · have hx : x.2 = v := hcomp x.1 x.2 (List.mem_cons_self _ _) hkey
      refine ih _ _ ?_ ?_
      · rw [hx]
        exact alookup_ainsert_self wm (keccak v) v
      · intro p e hmem heq
        exact hcomp p e (List.mem_cons_of_mem _ hmem) heq
    · refine ih _ _ ?_ ?_
      · rw [alookup_ainsert_ne _ (fun heq => hkey heq.symm) _]
        exact hbase
      · intro p e hmem heq
        exact hcomp p e (List.mem_cons_of_mem _ hmem) heq

theorem alookup_foldl_ainsert_mem (keccak : Bytes → B256) :
    ∀ (l : List (Nibbles × Bytes)) (wm : WitnessMap),
      (∀ p1 e1 p2 e2, (p1, e1) ∈ l → (p2, e2) ∈ l → keccak e1 = keccak e2 → e1 = e2) →
      ∀ p e, (p, e) ∈ l →
        alookup (l.foldl (fun m x => ainsert m (keccak x.2) x.2) wm) (keccak e) = some e := by
  intro l
  induction l with
  | nil =>
    intro wm _ p e hmem
    exact absurd hmem (List.not_mem_nil _)
  | cons x t ih =>
    intro wm hinj p e hmem
    simp only [List.foldl_cons]
    rcases List.mem_cons.mp hmem with heq | hmem'
    · subst heq
      refine alookup_foldl_ainsert_preserve keccak t _ _ ?_ ?_
      · exact alookup_ainsert_self wm (keccak e) e
      · intro p2 e2 hmem2 heq2
        exact hinj p2 e2 p e (List.mem_cons_of_mem _ hmem2) (List.mem_cons_self _ _) heq2
    · refine ih _ ?_ p e hmem'
      intro p1 e1 p2 e2 h1 h2 heq
      exact hinj p1 e1 p2 e2 (List.mem_cons_of_mem _ h1) (List.mem_cons_of_mem _ h2) heq

/-! ### Claim theorems over `target_nodes` -/

/-- **C3.**  For every target key, optional new value, and proof whose
contributed entry paths are duplicate-free, a successful `target_nodes` run
returns exactly the entries described by `insertedEntries` — for each decoded
Branch at path `P`, the entry `(P ++ [i], hash of child i)` for every set-bit
child `i` whose induced path is not a prefix of the target key (and none for
the prefix child); nothing for Extensions; for each decoded Leaf, its full
path and existing value iff that path differs from the target key — plus the
entry `(key, value)` iff a new value was supplied; in particular the target
key is bound in the result iff a new value was supplied (deletion inserts
nothing). -/
theorem target_nodes_characterization
    (decode : Bytes → Option TrieNode) (keccak : Bytes → B256)
    (key : Nibbles) (value : Option Bytes) (proof : ProofEntries)
    (witness : Option WitnessMap) (tn : TrieNodeMap) (w' : Option WitnessMap)
    (hok : target_nodes decode keccak key value proof witness = .ok (tn, w'))
    (hnd : ((insertedEntries decode key proof).map Prod.fst).Nodup) :
    (∀ q v, (q, v) ∈ tn ↔
        ((q, v) ∈ insertedEntries decode key proof ∨
          ∃ nv, value = some nv ∧ q = key ∧ v = NodeVal.value nv))
      ∧ ((∃ v, (key, v) ∈ tn) ↔ ∃ nv, value = some nv) := by
  unfold target_nodes at hok
  split at hok
  next e hgo => exact Except.noConfusion hok
  next tn0 w0 hgo =>
    have htn0 : tn0 = (insertedEntries decode key proof).foldl
        (fun m e => mapInsert m e.1 e.2) [] :=
      targetNodesGo_ok_tn decode keccak key proof [] witness tn0 w0 hgo
    have hsorted0 : MapSorted tn0 := by
      rw [htn0]
      exact mapSorted_foldl_mapInsert _ [] List.Pairwise.nil
    have hmem0 : ∀ q v, ((q, v) ∈ tn0 ↔ (q, v) ∈ insertedEntries decode key proof) := by
      intro q v
      rw [htn0]
      have := mem_foldl_mapInsert (insertedEntries decode key proof) [] List.Pairwise.nil
        (by simpa using hnd) q v
      simpa using this
    cases value with
    | none =>
      injection hok with hok
      injection hok with h1 h2
      subst h1
      constructor
      · intro q v
        rw [hmem0 q v]
        simp
      · constructor
        · rintro ⟨v, hv⟩
          exact absurd ((hmem0 key v).mp hv) (key_notin_insertedEntries decode key proof v)
        · rintro ⟨nv, hnv⟩
          exact Option.noConfusion hnv
    | some v0 =>
      injection hok with hok
      injection hok with h1 h2
      subst h1
      constructor
      · intro q v
        rw [mem_mapInsert hsorted0]
        constructor
        · rintro (⟨rfl, rfl⟩ | ⟨hm, hne⟩)
          · exact Or.inr ⟨v0, rfl, rfl, rfl⟩
          · exact Or.inl ((hmem0 q v).mp hm)
        · rintro (hm | ⟨nv, hnv, rfl, rfl⟩)
          · have hne : q ≠ key := fun rflq =>
              key_notin_insertedEntries decode key proof v (rflq ▸ hm)
            exact Or.inr ⟨(hmem0 q v).mpr hm, hne⟩
          · injection hnv with hnv
            subst hnv
            exact Or.inl ⟨rfl, rfl⟩
      · constructor
        · intro _
          exact ⟨v0, rfl⟩
        · intro _
          exact ⟨NodeVal.value v0, (mem_mapInsert hsorted0).mpr (Or.inl ⟨rfl, rfl⟩)⟩

/-- **C6.**  When `target_nodes` is given a witness map and returns
successfully, the witness map afterwards contains the mapping
`keccak encoded ↦ encoded` for every supplied proof entry (under hash
collision-freedom on the supplied nodes), regardless of whether the node
contributed an entry to the returned map. -/
theorem target_nodes_witness_complete
    (decode : Bytes → Option TrieNode) (keccak : Bytes → B256)
    (key : Nibbles) (value : Option Bytes) (proof : ProofEntries)
    (wm : WitnessMap) (tn : TrieNodeMap) (w' : Option WitnessMap)
    (hok : target_nodes decode keccak key value proof (some wm) = .ok (tn, w'))
    (hinj : ∀ p1 e1 p2 e2, (p1, e1) ∈ proof → (p2, e2) ∈ proof →
      keccak e1 = keccak e2 → e1 = e2) :
    ∃ wm', w' = some wm' ∧ ∀ p e, (p, e) ∈ proof → alookup wm' (keccak e) = some e := by
  unfold target_nodes at hok
  split at hok
  next e hgo => exact Except.noConfusion hok
  next tn0 w0 hgo =>
    have hw0 : w0 = some (proof.foldl (fun m e => ainsert m (keccak e.2) e.2) wm) :=
      targetNodesGo_ok_wit decode keccak key proof [] wm tn0 w0 hgo
    have hw' : w' = w0 := by
      cases value with
      | none =>
        injection hok with hok
        injection hok with h1 h2
        exact h2.symm
      | some v0 =>
        injection hok with hok
        injection hok with h1 h2
        exact h2.symm
    refine ⟨proof.foldl (fun m e => ainsert m (keccak e.2) e.2) wm, by rw [hw', hw0], ?_⟩
    intro p e hmem
    exact alookup_foldl_ainsert_mem keccak proof wm hinj p e hmem

/-- **C10.**  `target_nodes` is panic-free under the precondition that every
Branch-decoding proof entry has a path strictly shorter than the target key;
and a concrete input violating the precondition makes it panic with an
out-of-bounds index (modelled `Failure.indexPanic`) instead of returning a
decode error. -/
theorem target_nodes_panic_characterization :
    (∀ (decode : Bytes → Option TrieNode) (keccak : Bytes → B256)
        (key : Nibbles) (value : Option Bytes) (proof : ProofEntries)
        (witness : Option WitnessMap),
        (∀ p e, (p, e) ∈ proof → ∀ b, decode e = some (.branch b) →
          p.length < key.length) →
        target_nodes decode keccak key value proof witness ≠ .error .indexPanic)
      ∧ target_nodes (fun _ => some (.branch ⟨1, [[9]]⟩)) (fun _ => []) [] none
          [([], [0])] none = .error .indexPanic := by
  constructor
  · intro decode keccak key value proof witness hpre h
    unfold target_nodes at h
    split at h
    next e hgo =>
      injection h with h
      subst h
      exact targetNodesGo_no_panic decode keccak key proof [] witness hpre hgo
    next tn0 w0 hgo =>
      cases value with
      | none => exact Except.noConfusion h
      | some v0 => exact Except.noConfusion h
  · decide

/-- Witness for the `target_nodes` characterization at a concrete proof with
a Branch (one sibling child, one on-path child), an Extension, and a
stale-target Leaf, replacing the target's value. -/
theorem target_nodes_characterization_witness :
    (target_nodes dec0 kec0 [2, 7] (some [14]) [([], [1]), ([9], [2]), ([2], [3])] (some [])
        = .ok ([([2, 7], NodeVal.value [14]), ([5], NodeVal.hash [11])],
            some [([0, 1], [1]), ([0, 2], [2]), ([0, 3], [3])]))
      ∧ ((insertedEntries dec0 [2, 7] [([], [1]), ([9], [2]), ([2], [3])]).map Prod.fst).Nodup
      ∧ ((∀ q v,
            (q, v) ∈ ([([2, 7], NodeVal.value [14]), ([5], NodeVal.hash [11])] : TrieNodeMap) ↔
              ((q, v) ∈ insertedEntries dec0 [2, 7] [([], [1]), ([9], [2]), ([2], [3])] ∨
                ∃ nv, (some [14] : Option Bytes) = some nv ∧ q = [2, 7] ∧ v = NodeVal.value nv))
          ∧ ((∃ v, ([2, 7], v)
                ∈ ([([2, 7], NodeVal.value [14]), ([5], NodeVal.hash [11])] : TrieNodeMap)) ↔
              ∃ nv, (some [14] : Option Bytes) = some nv)) :=
  ⟨by decide, by decide,
    target_nodes_characterization dec0 kec0 [2, 7] (some [14])
      [([], [1]), ([9], [2]), ([2], [3])] (some [])
      [([2, 7], NodeVal.value [14]), ([5], NodeVal.hash [11])]
      (some [([0, 1], [1]), ([0, 2], [2]), ([0, 3], [3])])
      (by decide) (by decide)⟩

/-- Witness for the witness-map completeness of `target_nodes` at a concrete
proof, starting from a non-empty witness map. -/
theorem target_nodes_witness_complete_witness :
    (target_nodes dec0 kec1 [2, 7] none [([], [1]), ([2], [3])] (some [([9], [9])])
        = .ok ([([5], NodeVal.hash [11])], some [([9], [9]), ([1], [1]), ([3], [3])]))
      ∧ (∀ p1 e1 p2 e2, (p1, e1) ∈ ([([], [1]), ([2], [3])] : ProofEntries) →
          (p2, e2) ∈ ([([], [1]), ([2], [3])] : ProofEntries) → kec1 e1 = kec1 e2 → e1 = e2)
      ∧ ∃ wm', (some [([9], [9]), ([1], [1]), ([3], [3])] : Option WitnessMap) = some wm' ∧
          ∀ p e, (p, e) ∈ ([([], [1]), ([2], [3])] : ProofEntries) →
            alookup wm' (kec1 e) = some e :=
  ⟨by decide, fun _ _ _ _ _ _ h => h,
    target_nodes_witness_complete dec0 kec1 [2, 7] none [([], [1]), ([2], [3])]
      [([9], [9])] [([5], NodeVal.hash [11])]
      (some [([9], [9]), ([1], [1]), ([3], [3])])
      (by decide) (fun _ _ _ _ _ _ h => h)⟩

/-- Witness for the panic-freedom direction of the `target_nodes` panic
characterization: a proof whose only entry decodes to a Leaf satisfies the
precondition vacuously, and the run indeed does not panic. -/
theorem target_nodes_panic_witness :
    (∀ p e, (p, e) ∈ ([([], [3])] : ProofEntries) → ∀ b, dec0 e = some (.branch b) →
        p.length < ([2, 7] : Nibbles).length)
      ∧ target_nodes dec0 kec0 [2, 7] none [([], [3])] none ≠ .error .indexPanic := by
  have hpre : ∀ p e, (p, e) ∈ ([([], [3])] : ProofEntries) → ∀ b, dec0 e = some (.branch b) →
      p.length < ([2, 7] : Nibbles).length := by
    intro p e hmem b hb
    have heq := List.mem_singleton.mp hmem
    injection heq with hp he
    subst he
    simp [dec0] at hb
  exact ⟨hpre,
    target_nodes_panic_characterization.1 dec0 kec0 [2, 7] none [([], [3])] none hpre⟩

/-! ### Lemmas for the ignored-entry filter -/

theorem mem_ignoredKeys {ks : List Nibbles} {k : Nibbles} :
    k ∈ ignoredKeys ks ↔ ∃ nxt, (k, nxt) ∈ ks.zip ks.tail ∧ isPre k nxt = true := by
  induction ks with
  | nil => simp [ignoredKeys]
  | cons a t ih =>
    cases t with
    | nil => simp [ignoredKeys]
    | cons b t' =>
      have hunfold : ignoredKeys (a :: b :: t')
          = (if isPre a b = true then [a] else []) ++ ignoredKeys (b :: t') := rfl
      constructor
      · intro hk
        rw [hunfold, List.mem_append] at hk
        rcases hk with hk | hk
        · by_cases hab : isPre a b = true
          · rw [if_pos hab] at hk
            rcases List.mem_singleton.mp hk with rfl
            exact ⟨b, by simp, hab⟩
          · rw [if_neg hab] at hk
            cases hk
        · rcases ih.mp hk with ⟨nxt, hmem, hpre⟩
          refine ⟨nxt, ?_, hpre⟩
          simp only [List.tail_cons, List.zip_cons_cons, List.mem_cons]
          right
          simpa using hmem
      · rintro ⟨nxt, hmem, hpre⟩
        rw [hunfold, List.mem_append]
        simp only [List.tail_cons, List.zip_cons_cons, List.mem_cons] at hmem
        rcases hmem with heq | hmem
        · injection heq with h1 h2
          subst h1
          subst h2
          left
          rw [if_pos hpre]
          exact List.mem_singleton.mpr rfl
        · right
          refine ih.mpr ⟨nxt, ?_, hpre⟩
          simpa using hmem

theorem pairwise_zip_tail {l : List Nibbles}
    (hp : l.Pairwise (fun x y => lexLt x y = true)) {k nxt : Nibbles}
    (h : (k, nxt) ∈ l.zip l.tail) : lexLt k nxt = true := by
  induction l with
  | nil => cases h
  | cons a t ih =>
    cases t with
    | nil => cases h
    | cons b t' =>
      simp only [List.tail_cons, List.zip_cons_cons, List.mem_cons] at h
      rcases h with heq | h'
      · injection heq with h1 h2
        subst h1
        subst h2
        exact (List.pairwise_cons.mp hp).1 nxt (List.mem_cons_self _ _)
      · have := ih (List.pairwise_cons.mp hp).2
        simp only [List.tail_cons] at this
        exact this h'

/-- In a strictly sorted key list, a key that is a strict prefix of any other
key in the list is a prefix of its immediate successor, hence ignored. -/
theorem prefix_mem_ignoredKeys {l : List Nibbles}
    (hp : l.Pairwise (fun x y => lexLt x y = true)) {x y : Nibbles}
    (hx : x ∈ l) (hy : y ∈ l) (hpre : isPre x y = true) (hne : x ≠ y) :
    x ∈ ignoredKeys l := by
  induction l with
  | nil => cases hx
  | cons a t ih =>
    rcases List.mem_cons.mp hx with rfl | hx'
    · rcases List.mem_cons.mp hy with rfl | hy'
      · exact absurd rfl hne
      · cases t with
        | nil => cases hy'
        | cons b t' =>
          have hab : lexLt x b = true :=
            (List.pairwise_cons.mp hp).1 b (List.mem_cons_self _ _)
          have hby : b = y ∨ lexLt b y = true := by
            rcases List.mem_cons.mp hy' with rfl | hy''
            · exact Or.inl rfl
            · exact Or.inr
                ((List.pairwise_cons.mp (List.pairwise_cons.mp hp).2).1 y hy'')
          have hpreab : isPre x b = true := isPre_of_between (Or.inr hab) hby hpre
          simp [ignoredKeys, hpreab]
    · rcases List.mem_cons.mp hy with rfl | hy'
      · have hax : lexLt y x = true := (List.pairwise_cons.mp hp).1 x hx'
        have hxy : lexLt x y = true := by
          rcases isPre_lexLe hpre with heq | hlt
          · exact absurd heq hne
          · exact hlt
        exact absurd (lexLt_trans hax hxy) (by simp [lexLt_irrefl])
      · cases t with
        | nil => cases hx'
        | cons b t' =>
          have hsub := ih (List.pairwise_cons.mp hp).2 hx' hy'
          simp only [ignoredKeys, List.mem_append]
          exact Or.inr hsub

theorem mapSorted_keys {α : Type} {m : List (Nibbles × α)} (hs : MapSorted m) :
    (m.map Prod.fst).Pairwise (fun x y => lexLt x y = true) := by
  rw [List.pairwise_map]
  exact hs

/-! ### Claim theorems over `next_root_from_proofs` -/

/-- **C4.**  In `next_root_from_proofs`, an input entry is excluded from the
hash-builder pass iff its path is a strict prefix of the immediately
following path in the sorted order of the input map; consequently no fed
entry's path is a strict prefix of another fed entry's path. -/
theorem next_root_filter_characterization (trie_nodes : TrieNodeMap)
    (hs : MapSorted trie_nodes) :
    (∀ e, e ∈ trie_nodes →
        (e ∉ fedEntries trie_nodes ↔
          ∃ nxt,
            (e.1, nxt) ∈ (trie_nodes.map Prod.fst).zip (trie_nodes.map Prod.fst).tail ∧
              isPre e.1 nxt = true ∧ e.1 ≠ nxt))
      ∧ (∀ a b, a ∈ fedEntries trie_nodes → b ∈ fedEntries trie_nodes →
          isPre a.1 b.1 = true → a.1 = b.1) := by
  have hkeys := mapSorted_keys hs
  constructor
  · intro e he
    have hfed : e ∈ fedEntries trie_nodes ↔
        e.1 ∉ ignoredKeys (trie_nodes.map Prod.fst) := by
      unfold fedEntries
      rw [List.mem_filter]
      constructor
      · intro h
        exact of_decide_eq_true h.2
      · intro h
        exact ⟨he, decide_eq_true h⟩
    constructor
    · intro hnot
      have hig : e.1 ∈ ignoredKeys (trie_nodes.map Prod.fst) := by
        by_contra hcon
        exact hnot (hfed.mpr hcon)
      rcases mem_ignoredKeys.mp hig with ⟨nxt, hmem, hpre⟩
      exact ⟨nxt, hmem, hpre, lexLt_ne (pairwise_zip_tail hkeys hmem)⟩
    · rintro ⟨nxt, hmem, hpre, hne⟩ hcon
      have hig : e.1 ∈ ignoredKeys (trie_nodes.map Prod.fst) :=
        mem_ignoredKeys.mpr ⟨nxt, hmem, hpre⟩
      exact (hfed.mp hcon) hig
  · intro a b ha hb hpre
    by_contra hne
    have ha' : a ∈ trie_nodes := (List.mem_filter.mp ha).1
    have hb' : b ∈ trie_nodes := (List.mem_filter.mp hb).1
    have hig : a.1 ∈ ignoredKeys (trie_nodes.map Prod.fst) :=
      prefix_mem_ignoredKeys hkeys (List.mem_map_of_mem Prod.fst ha')
        (List.mem_map_of_mem Prod.fst hb') hpre hne
    exact (of_decide_eq_true (List.mem_filter.mp ha).2) hig

/-- Witness for the filter characterization at a concrete sorted map where
the first path is a strict prefix of the second. -/
theorem next_root_filter_characterization_witness :
    MapSorted ([([1], NodeVal.hash [3]), ([1, 2], NodeVal.value [4])] : TrieNodeMap)
      ∧ ((∀ e, e ∈ ([([1], NodeVal.hash [3]), ([1, 2], NodeVal.value [4])] : TrieNodeMap) →
          (e ∉ fedEntries [([1], NodeVal.hash [3]), ([1, 2], NodeVal.value [4])] ↔
            ∃ nxt,
              (e.1, nxt) ∈
                (([([1], NodeVal.hash [3]), ([1, 2], NodeVal.value [4])] : TrieNodeMap).map
                      Prod.fst).zip
                  ((([([1], NodeVal.hash [3]), ([1, 2], NodeVal.value [4])] : TrieNodeMap).map
                      Prod.fst).tail) ∧
                isPre e.1 nxt = true ∧ e.1 ≠ nxt))
        ∧ (∀ a b, a ∈ fedEntries [([1], NodeVal.hash [3]), ([1, 2], NodeVal.value [4])] →
            b ∈ fedEntries [([1], NodeVal.hash [3]), ([1, 2], NodeVal.value [4])] →
            isPre a.1 b.1 = true → a.1 = b.1)) :=
  ⟨by unfold MapSorted; decide,
    next_root_filter_characterization
      [([1], NodeVal.hash [3]), ([1, 2], NodeVal.value [4])] (by unfold MapSorted; decide)⟩

/-- **C5 (amended).**  Dispatch of a hash-reference entry in
`next_root_from_proofs`: the entry is added directly as a branch child iff
the builder's current key, or the next remaining entry's path, starts with
the parent prefix `path[..len-1]`; otherwise the missing-node provider is
invoked with the *entry's own path* (the source passes `path`, not the
parent path the spec describes), and the resolution loop decodes a Branch
into all of its set-bit children, a Leaf into a leaf at its full path, and
an Extension into a lookup-path extension and another provider resolution. -/
theorem next_root_hash_entry_dispatch {σ : Type} (decode : Bytes → Option TrieNode)
    (provider : σ → Nibbles → Except Failure (Bytes × σ))
    (path : Nibbles) (bh : B256) (rest : TrieNodeMap) (hb : HashBuilder) (s : σ)
    (fuel : Nat) :
    (nrCond hb path rest = true →
        nextRootGo decode provider ((path, .hash bh) :: rest) hb s fuel
          = nextRootGo decode provider rest (hb.addBranch path bh false) s fuel)
      ∧ (nrCond hb path rest = false →
        nextRootGo decode provider ((path, .hash bh) :: rest) hb s fuel
          = match resolveNode decode provider hb path s fuel with
            | .error e => .error e
            | .ok (hb', s') => nextRootGo decode provider rest hb' s' fuel)
      ∧ (∀ nodeBytes s', provider s path = .ok (nodeBytes, s') →
          (∀ bnode, decode nodeBytes = some (.branch bnode) →
              resolveNode decode provider hb path s (fuel + 1)
                = .ok ((branch_node_children path bnode).foldl
                    (fun hb c => hb.addBranch c.1 c.2 false) hb, s'))
            ∧ (∀ lkey lval, decode nodeBytes = some (.leaf lkey lval) →
              resolveNode decode provider hb path s (fuel + 1)
                = .ok (hb.addLeaf (path ++ lkey) lval, s'))
            ∧ (∀ ekey child, decode nodeBytes = some (.extension ekey child) →
              resolveNode decode provider hb path s (fuel + 1)
                = resolveNode decode provider hb (path ++ ekey) s' fuel)) := by
  refine ⟨?_, ?_, ?_⟩
  · intro hc
    simp [nextRootGo, hc]
  · intro hc
    simp [nextRootGo, hc]
  · intro nodeBytes s' hprov
    refine ⟨?_, ?_, ?_⟩
    · intro bnode hdec
      simp [resolveNode, hprov, hdec]
    · intro lkey lval hdec
      simp [resolveNode, hprov, hdec]
    · intro ekey child hdec
      simp [resolveNode, hprov, hdec]

/-- **C5 counterexample.**  With a provider that records the paths it is
asked for, the fallback resolution of the isolated hash entry at path
`[1, 2]` invokes the provider with the entry's own path `[1, 2]` — not with
the parent path `[1]` as the claim states. -/
theorem next_root_provider_path_counterexample :
    next_root_from_proofs (fun b => if b = [9] then some (.leaf [] [7]) else none)
        [([1, 2], NodeVal.hash [5])] false
        (fun (s : List Nibbles) p => .ok ([9], s ++ [p])) ([] : List Nibbles) 5
      = .ok (([2, 1, 2, 1, 1, 7], []), [[1, 2]])
    ∧ ([[1, 2]] : List Nibbles) ≠ [[1]] :=
  ⟨by decide, by decide⟩

/-- Witness for the dispatch characterization: the direct-add case at a
builder whose key covers the parent prefix, applied at concrete values. -/
theorem next_root_hash_entry_dispatch_witness :
    nrCond (HashBuilder.addLeaf {} [1, 1] [9]) [1, 2] [] = true
      ∧ nextRootGo dec0 (fun (_ : Unit) _ => .error .proofError)
            [([1, 2], NodeVal.hash [5])] (HashBuilder.addLeaf {} [1, 1] [9]) () 5
          = nextRootGo dec0 (fun (_ : Unit) _ => .error .proofError) []
              ((HashBuilder.addLeaf {} [1, 1] [9]).addBranch [1, 2] [5] false) () 5 :=
  ⟨by decide,
    (next_root_hash_entry_dispatch dec0 (fun (_ : Unit) _ => .error .proofError)
        [1, 2] [5] [] (HashBuilder.addLeaf {} [1, 1] [9]) () 5).1 (by decide)⟩

/-! ### Error-shape lemmas for the compute pipeline -/

theorem alookup_eq_none_iff {κ α : Type} [DecidableEq κ] (m : List (κ × α)) (k : κ) :
    alookup m k = none ↔ k ∉ m.map Prod.fst := by
  induction m with
  | nil => simp [alookup]
  | cons e t ih =>
    obtain ⟨k', v'⟩ := e
    by_cases h : k = k'
    · subst h
      simp [alookup]
    · simp [alookup, h, ih, Ne.symm h]

/-- `targetNodesGo` only fails with a decode error or the index panic. -/
theorem targetNodesGo_error_shape (decode : Bytes → Option TrieNode) (keccak : Bytes → B256)
    (key : Nibbles) :
    ∀ (proof : ProofEntries) (tn : TrieNodeMap) (w : Option WitnessMap) (e : Failure),
      targetNodesGo decode keccak key proof tn w = .error e →
      e = .rlpError ∨ e = .indexPanic := by
  intro proof
  induction proof with
  | nil =>
    intro tn w e h
    simp only [targetNodesGo] at h
    exact Except.noConfusion h
  | cons entry rest ih =>
    intro tn w e h
    obtain ⟨path, encoded⟩ := entry
    simp only [targetNodesGo] at h
    split at h
    next =>
      injection h with h
      exact Or.inl h.symm
    next bnode hdec =>
      split at h
      next => exact ih _ _ _ h
      next =>
        injection h with h
        exact Or.inr h.symm
    next ekey child hdec => exact ih _ _ _ h
    next lkey lval hdec =>
      by_cases hkey : path ++ lkey = key
      · rw [if_pos hkey] at h
        exact ih _ _ _ h
      · rw [if_neg hkey] at h
        exact ih _ _ _ h

/-- `target_nodes` only fails with a decode error or the index panic. -/
theorem target_nodes_error_shape (decode : Bytes → Option TrieNode) (keccak : Bytes → B256)
    (key : Nibbles) (value : Option Bytes) (proof : ProofEntries)
    (witness : Option WitnessMap) (e : Failure)
    (h : target_nodes decode keccak key value proof witness = .error e) :
    e = .rlpError ∨ e = .indexPanic := by
  unfold target_nodes at h
  split at h
  next e' hgo =>
    injection h with h
    subst h
    exact targetNodesGo_error_shape decode keccak key proof [] witness _ hgo
  next tn0 w0 hgo =>
    cases value with
    | none => exact Except.noConfusion h
    | some v0 => exact Except.noConfusion h

/-- The storage-slot loop only fails with a decode error or the index
panic. -/
theorem storageSlotNodesGo_error_shape (c : Ctx) (storage : Option HashedStorage)
    (smp : StorageMultiProof) :
    ∀ (slots : List B256) (tn : TrieNodeMap) (wit : WitnessMap) (e : Failure),
      storageSlotNodesGo c storage smp slots tn wit = .error e →
      e = .rlpError ∨ e = .indexPanic := by
  intro slots
  induction slots with
  | nil =>
    intro tn wit e h
    simp only [storageSlotNodesGo] at h
    exact Except.noConfusion h
  | cons slot rest ih =>
    intro tn wit e h
    simp only [storageSlotNodesGo] at h
    split at h
    next e' htn =>
      injection h with h
      subst h
      exact target_nodes_error_shape _ _ _ _ _ _ _ htn
    next nodes w htn => exact ih _ _ _ h

/-- `resolveNode` fails only by running out of fuel, a decode error, or an
error surfaced verbatim from the provider. -/
theorem resolveNode_error_shape {σ : Type} (decode : Bytes → Option TrieNode)
    (provider : σ → Nibbles → Except Failure (Bytes × σ)) :
    ∀ (fuel : Nat) (hb : HashBuilder) (path : Nibbles) (s : σ) (e : Failure),
      resolveNode decode provider hb path s fuel = .error e →
      e = .outOfFuel ∨ e = .rlpError ∨ ∃ s0 p0, provider s0 p0 = .error e := by
  intro fuel
  induction fuel with
  | zero =>
    intro hb path s e h
    simp only [resolveNode] at h
    injection h with h
    exact Or.inl h.symm
  | succ n ih =>
    intro hb path s e h
    simp only [resolveNode] at h
    split at h
    next e' hprov =>
      injection h with h
      subst h
      exact Or.inr (Or.inr ⟨s, path, hprov⟩)
    next node s' hprov =>
      split at h
      next =>
        injection h with h
        exact Or.inr (Or.inl h.symm)
      next bnode hdec => exact Except.noConfusion h
      next lkey lval hdec => exact Except.noConfusion h
      next ekey child hdec =>
        rcases ih _ _ _ _ h with h1 | h1 | ⟨s0, p0, h1⟩
        · exact Or.inl h1
        · exact Or.inr (Or.inl h1)
        · exact Or.inr (Or.inr ⟨s0, p0, h1⟩)

/-- Any error of the hash-builder pass originates in some `resolveNode`
call with the same error value. -/
theorem nextRootGo_error_shape {σ : Type} (decode : Bytes → Option TrieNode)
    (provider : σ → Nibbles → Except Failure (Bytes × σ)) :
    ∀ (entries : TrieNodeMap) (hb : HashBuilder) (s : σ) (fuel : Nat) (e : Failure),
      nextRootGo decode provider entries hb s fuel = .error e →
      ∃ hb' path s', resolveNode decode provider hb' path s' fuel = .error e := by
  intro entries
  induction entries with
  | nil =>
    intro hb s fuel e h
    simp only [nextRootGo] at h
    exact Except.noConfusion h
  | cons entry rest ih =>
    intro hb s fuel e h
    obtain ⟨path, val⟩ := entry
    cases val with
    | hash bh =>
      simp only [nextRootGo] at h
      split at h
      next => exact ih _ _ _ _ h
      next =>
        split at h
        next e' hres =>
          injection h with h
          subst h
          exact ⟨hb, path, s, hres⟩
        next hb' s' hres => exact ih _ _ _ _ h
    | value v =>
      simp only [nextRootGo] at h
      exact ih _ _ _ _ h

/-- Any error of `next_root_from_proofs` originates in some `resolveNode`
call with the same error value. -/
theorem next_root_error_shape {σ : Type} (decode : Bytes → Option TrieNode)
    (trie_nodes : TrieNodeMap) (retain_updates : Bool)
    (provider : σ → Nibbles → Except Failure (Bytes × σ)) (s : σ) (fuel : Nat)
    (e : Failure)
    (h : next_root_from_proofs decode trie_nodes retain_updates provider s fuel = .error e) :
    ∃ hb' path s', resolveNode decode provider hb' path s' fuel = .error e := by
  unfold next_root_from_proofs at h
  split at h
  next e' hgo =>
    injection h with h
    subst h
    exact nextRootGo_error_shape decode provider _ _ _ _ _ hgo
  next hb s' hgo => exact Except.noConfusion h

/-- The storage missing-node provider fails only with `MissingTargetNode` at
the requested path or an error surfaced from the single-target fetch. -/
theorem storageNodeProvider_error_shape (c : Ctx) (addr : B256) (wit : WitnessMap)
    (key : Nibbles) (e : Failure)
    (h : storageNodeProvider c addr wit key = .error e) :
    e = .missingTargetNode key ∨ ∃ a k, c.fetchStorage a k = .error e := by
  unfold storageNodeProvider at h
  split at h
  next e' hfetch =>
    injection h with h
    subst h
    exact Or.inr ⟨addr, packPad32 key, hfetch⟩
  next proof hfetch =>
    split at h
    next =>
      injection h with h
      exact Or.inl h.symm
    next node hlook => exact Except.noConfusion h

/-- The account missing-node provider fails only with `MissingTargetNode` at
the requested path or an error surfaced from the single-target fetch. -/
theorem accountNodeProvider_error_shape (c : Ctx) (wit : WitnessMap)
    (key : Nibbles) (e : Failure)
    (h : accountNodeProvider c wit key = .error e) :
    e = .missingTargetNode key ∨ ∃ k, c.fetchAccount k = .error e := by
  unfold accountNodeProvider at h
  split at h
  next e' hfetch =>
    injection h with h
    subst h
    exact Or.inr ⟨packPad32 key, hfetch⟩
  next proof hfetch =>
    split at h
    next =>
      injection h with h
      exact Or.inl h.symm
    next node hlook => exact Except.noConfusion h

/-- Classification of `processAccountCore` failures: a missing post-state
account record for the target (yielding `MissingAccount`), a decode error or
index panic from target extraction, fuel exhaustion or a decode error inside
root resolution, or an error of the storage missing-node provider. -/
theorem processAccountCore_error_shape (c : Ctx) (fuel : Nat)
    (state : HashedPostState) (accountSubtree : ProofEntries) (st : ComputeSt)
    (t : B256 × List B256) (e : Failure)
    (h : processAccountCore c fuel state accountSubtree st t = .error e) :
    (e = .missingAccount t.1 ∧ alookup state.accounts t.1 = none)
      ∨ e = .rlpError ∨ e = .indexPanic ∨ e = .outOfFuel
      ∨ ∃ wit key, storageNodeProvider c t.1 wit key = .error e := by
  simp only [processAccountCore] at h
  split at h
  next hlook =>
    injection h with h
    exact Or.inl ⟨h.symm, hlook⟩
  next account hlook =>
    split at h
    next e' htn =>
      injection h with h
      subst h
      rcases target_nodes_error_shape _ _ _ _ _ _ _ htn with h1 | h1
      · exact Or.inr (Or.inl h1)
      · exact Or.inr (Or.inr (Or.inl h1))
    next nodes w htn =>
      split at h
      next e' hss =>
        injection h with h
        subst h
        rcases storageSlotNodesGo_error_shape _ _ _ _ _ _ _ hss with h1 | h1
        · exact Or.inr (Or.inl h1)
        · exact Or.inr (Or.inr (Or.inl h1))
      next stn wit2 hss =>
        split at h
        next e' hnr =>
          injection h with h
          subst h
          rcases next_root_error_shape _ _ _ _ _ _ _ hnr with ⟨hb', path, s', hres⟩
          rcases resolveNode_error_shape _ _ _ _ _ _ _ hres with h1 | h1 | ⟨s0, p0, h1⟩
          · exact Or.inr (Or.inr (Or.inr (Or.inl h1)))
          · exact Or.inr (Or.inl h1)
          · exact Or.inr (Or.inr (Or.inr (Or.inr ⟨s0, p0, h1⟩)))
        next ru wit3 hnr => exact Except.noConfusion h

/-- A successful `processAccountCore` run implies the target has a
post-state account record. -/
theorem processAccountCore_ok_lookup (c : Ctx) (fuel : Nat)
    (state : HashedPostState) (accountSubtree : ProofEntries) (st : ComputeSt)
    (t : B256 × List B256) (r : B256 × B256 × ComputeSt)
    (h : processAccountCore c fuel state accountSubtree st t = .ok r) :
    ∃ a, alookup state.accounts t.1 = some a := by
  simp only [processAccountCore] at h
  split at h
  next hlook => exact Except.noConfusion h
  next account hlook => exact ⟨account, hlook⟩

/-- `processAccount` fails exactly with a `processAccountCore` failure or
with the assertion failure of the root-consistency `debug_assert_eq!`. -/
theorem processAccount_error_shape (c : Ctx) (dbg : Bool) (fuel : Nat)
    (state : HashedPostState) (accountSubtree : ProofEntries) (st : ComputeSt)
    (t : B256 × List B256) (e : Failure)
    (h : processAccount c dbg fuel state accountSubtree st t = .error e) :
    processAccountCore c fuel state accountSubtree st t = .error e
      ∨ e = .assertionFailure := by
  unfold processAccount at h
  split at h
  next e' hcore =>
    injection h with h
    subst h
    exact Or.inl hcore
  next mpRoot storageRoot st' hcore =>
    split at h
    next =>
      injection h with h
      exact Or.inr h.symm
    next => exact Except.noConfusion h

/-- A successful `processAccount` run implies the target has a post-state
account record. -/
theorem processAccount_ok_lookup (c : Ctx) (dbg : Bool) (fuel : Nat)
    (state : HashedPostState) (accountSubtree : ProofEntries) (st : ComputeSt)
    (t : B256 × List B256) (st' : ComputeSt)
    (h : processAccount c dbg fuel state accountSubtree st t = .ok st') :
    ∃ a, alookup state.accounts t.1 = some a := by
  unfold processAccount at h
  split at h
  next e' hcore => exact Except.noConfusion h
  next mpRoot storageRoot st'' hcore =>
    exact processAccountCore_ok_lookup c fuel state accountSubtree st t _ hcore

/-- Any error of the account loop is an error of `processAccount` at one of
the targets. -/
theorem foldAccounts_error_shape (c : Ctx) (dbg : Bool) (fuel : Nat)
    (state : HashedPostState) (accountSubtree : ProofEntries) :
    ∀ (ts : List (B256 × List B256)) (st : ComputeSt) (e : Failure),
      foldAccounts c dbg fuel state accountSubtree ts st = .error e →
      ∃ t ∈ ts, ∃ st0, processAccount c dbg fuel state accountSubtree st0 t = .error e := by
  intro ts
  induction ts with
  | nil =>
    intro st e h
    simp only [foldAccounts] at h
    exact Except.noConfusion h
  | cons t rest ih =>
    intro st e h
    simp only [foldAccounts] at h
    split at h
    next e' hp =>
      injection h with h
      subst h
      exact ⟨t, List.mem_cons_self _ _, st, hp⟩
    next st' hp =>
      rcases ih _ _ h with ⟨t0, hmem, st0, h0⟩
      exact ⟨t0, List.mem_cons_of_mem _ hmem, st0, h0⟩

/-- A successful account loop ran `processAccount` successfully on every
target. -/
theorem foldAccounts_ok_mem (c : Ctx) (dbg : Bool) (fuel : Nat)
    (state : HashedPostState) (accountSubtree : ProofEntries) :
    ∀ (ts : List (B256 × List B256)) (st st' : ComputeSt),
      foldAccounts c dbg fuel state accountSubtree ts st = .ok st' →
      ∀ t ∈ ts, ∃ st0 st1, processAccount c dbg fuel state accountSubtree st0 t = .ok st1 := by
  intro ts
  induction ts with
  | nil =>
    intro st st' _ t hmem
    exact absurd hmem (List.not_mem_nil _)
  | cons t0 rest ih =>
    intro st st' h t hmem
    simp only [foldAccounts] at h
    split at h
    next e' hp => exact Except.noConfusion h
    next st1 hp =>
      rcases List.mem_cons.mp hmem with rfl | hmem'
      · exact ⟨st, st1, hp⟩
      · exact ih _ _ h t hmem'

/-- Classification of `compute` failures. -/
theorem compute_error_shape (c : Ctx) (dbg : Bool) (fuel : Nat)
    (state : HashedPostState) (e : Failure)
    (h : compute c dbg fuel state = .error e) :
    c.fetchMultiproof (proofTargets state) = .error e
      ∨ (∃ mp, c.fetchMultiproof (proofTargets state) = .ok mp ∧
          ((∃ t ∈ proofTargets state, ∃ st0,
              processAccount c dbg fuel state mp.account_subtree st0 t = .error e)
            ∨ ∃ hb' path s', resolveNode c.decode (accountNodeProvider c) hb' path s' fuel
                = .error e)) := by
  simp only [compute] at h
  split at h
  next e' hfetch =>
    injection h with h
    subst h
    exact Or.inl hfetch
  next mp hfetch =>
    split at h
    next e' hfold =>
      injection h with h
      subst h
      rcases foldAccounts_error_shape c dbg fuel state mp.account_subtree _ _ _ hfold with
        ⟨t, hmem, st0, hp⟩
      exact Or.inr ⟨mp, hfetch, Or.inl ⟨t, hmem, st0, hp⟩⟩
    next st hfold =>
      split at h
      next e' hnr =>
        injection h with h
        subst h
        exact Or.inr ⟨mp, hfetch, Or.inr (next_root_error_shape _ _ _ _ _ _ _ hnr)⟩
      next ru hnr => exact Except.noConfusion h

/-- A successful `compute` run fetched the batched multiproof and ran the
account loop to completion. -/
theorem compute_ok_shape (c : Ctx) (dbg : Bool) (fuel : Nat)
    (state : HashedPostState) (w : WitnessMap)
    (h : compute c dbg fuel state = .ok w) :
    ∃ mp st, c.fetchMultiproof (proofTargets state) = .ok mp ∧
      foldAccounts c dbg fuel state mp.account_subtree (proofTargets state)
        ⟨[], [], mp.storages⟩ = .ok st := by
  simp only [compute] at h
  split at h
  next e' hfetch => exact Except.noConfusion h
  next mp hfetch =>
    split at h
    next e' hfold => exact Except.noConfusion h
    next st hfold =>
      exact ⟨mp, st, hfetch, hfold⟩

/-- Every proof target's address comes from the post-state. -/
theorem mem_proofTargets_keys (state : HashedPostState) (t : B256 × List B256)
    (h : t ∈ proofTargets state) :
    t.1 ∈ state.accounts.map Prod.fst ∨ t.1 ∈ state.storages.map Prod.fst := by
  unfold proofTargets at h
  rcases List.mem_append.mp h with h' | h'
  · rcases List.mem_map.mp h' with ⟨a, ha, rfl⟩
    exact Or.inl (List.mem_map_of_mem Prod.fst (List.mem_filter.mp ha).1)
  · rcases List.mem_map.mp h' with ⟨a, ha, rfl⟩
    exact Or.inr (List.mem_map_of_mem Prod.fst ha)

/-- Every storage-bearing address of the post-state is a proof target. -/
theorem storages_mem_proofTargets (state : HashedPostState) (a : B256)
    (h : a ∈ state.storages.map Prod.fst) :
    ∃ slots, (a, slots) ∈ proofTargets state := by
  rcases List.mem_map.mp h with ⟨entry, hmem, heq⟩
  refine ⟨entry.2.storage.map Prod.fst, ?_⟩
  unfold proofTargets
  rw [List.mem_append]
  right
  rw [← heq]
  exact List.mem_map_of_mem _ hmem

/-! ### Claim theorems over `compute` -/

/-- **C1.**  The account leaf value built by `compute` (and passed to
`target_nodes` for the account key) is absent iff the account record is
absent and the account's resolved storage root (the root of its storage
multiproof, defaulted to the empty proof) equals the canonical empty-trie
root; in every other case it is the account encoding with that root, with an
absent record defaulting its fields — in particular an absent record with a
non-empty storage root still yields a leaf value. -/
theorem account_leaf_value_characterization
    (encodeAccount : Account → B256 → Bytes) (account : Option Account)
    (storageRoot : B256) :
    (accountLeafValue encodeAccount account storageRoot = none ↔
        account = none ∧ storageRoot = EMPTY_ROOT_HASH)
      ∧ (¬(account = none ∧ storageRoot = EMPTY_ROOT_HASH) →
        accountLeafValue encodeAccount account storageRoot
          = some (encodeAccount (account.getD defaultAccount) storageRoot))
      ∧ (account = none → storageRoot ≠ EMPTY_ROOT_HASH →
        accountLeafValue encodeAccount account storageRoot
          = some (encodeAccount defaultAccount storageRoot)) := by
  unfold accountLeafValue
  by_cases hcond : account.isSome = true ∨ storageRoot ≠ EMPTY_ROOT_HASH
  · rw [if_pos hcond]
    refine ⟨?_, ?_, ?_⟩
    · constructor
      · intro h
        exact Option.noConfusion h
      · rintro ⟨rfl, rfl⟩
        rcases hcond with h | h
        · exact absurd h (by simp [Option.isSome])
        · exact absurd rfl h
    · intro _
      rfl
    · intro hacc _
      rw [hacc]
      rfl
  · rw [if_neg hcond]
    push_neg at hcond
    obtain ⟨hsome, hroot⟩ := hcond
    have hacc : account = none := by
      cases account with
      | none => rfl
      | some a => exact absurd rfl hsome
    refine ⟨?_, ?_, ?_⟩
    · exact ⟨fun _ => ⟨hacc, hroot⟩, fun _ => rfl⟩
    · intro hcon
      exact absurd ⟨hacc, hroot⟩ hcon
    · intro _ hne
      exact absurd hroot hne

/-- Witness for the account-leaf-value characterization: an absent account
record with a non-empty storage root still yields a leaf value. -/
theorem account_leaf_value_witness :
    ((none : Option Account) = none)
      ∧ (([1] : B256) ≠ EMPTY_ROOT_HASH)
      ∧ accountLeafValue (fun _ r => 100 :: r) none [1]
          = some ((fun (_ : Account) (r : B256) => 100 :: r) defaultAccount [1]) :=
  ⟨rfl, by decide,
    (account_leaf_value_characterization (fun _ r => 100 :: r) none [1]).2.2 rfl (by decide)⟩

/-- **C7 (amended).**  `compute` returns `MissingAccount(a)` only when `a` is
a proof target with no entry in the post-state accounts map — which can only
happen for an address with storage changes but no account record (the source
consults the post-state accounts map here, not the multiproof); conversely,
whenever such a target exists the whole computation aborts with an error (no
witness is returned), with `MissingAccount` for such an address unless an
earlier-processed account fails first.  The fetch functions are assumed
never to produce a `MissingAccount` value themselves (in the source that
variant is constructed only inside `compute`). -/
theorem compute_missing_account_characterization (c : Ctx) (dbg : Bool) (fuel : Nat)
    (state : HashedPostState)
    (hf1 : ∀ ts e, c.fetchMultiproof ts = .error e → ∀ b, e ≠ .missingAccount b)
    (hf2 : ∀ a k e, c.fetchStorage a k = .error e → ∀ b, e ≠ .missingAccount b)
    (hf3 : ∀ k e, c.fetchAccount k = .error e → ∀ b, e ≠ .missingAccount b) :
    (∀ a, compute c dbg fuel state = .error (.missingAccount a) →
        a ∈ state.storages.map Prod.fst ∧ a ∉ state.accounts.map Prod.fst)
      ∧ ((∃ a, a ∈ state.storages.map Prod.fst ∧ a ∉ state.accounts.map Prod.fst) →
        ∀ w, compute c dbg fuel state ≠ .ok w) := by
  constructor
  · intro a h
    rcases compute_error_shape c dbg fuel state _ h with hf | ⟨mp, hfetch, hrest⟩
    · exact absurd rfl (hf1 _ _ hf a)
    · rcases hrest with ⟨t, hmem, st0, hp⟩ | ⟨hb', path, s', hres⟩
      · rcases processAccount_error_shape c dbg fuel state mp.account_subtree st0 t _ hp with
          hcore | hassert
        · rcases processAccountCore_error_shape c fuel state mp.account_subtree st0 t _ hcore
            with ⟨heq, hlook⟩ | h1 | h1 | h1 | ⟨wit, key, hprov⟩
          · have ha : a = t.1 := by
              injection heq
            subst ha
            have hnacc : t.1 ∉ state.accounts.map Prod.fst :=
              (alookup_eq_none_iff _ _).mp hlook
            rcases mem_proofTargets_keys state t hmem with hk | hk
            · exact absurd hk hnacc
            · exact ⟨hk, hnacc⟩
          · exact Failure.noConfusion h1
          · exact Failure.noConfusion h1
          · exact Failure.noConfusion h1
          · rcases storageNodeProvider_error_shape c t.1 wit key _ hprov with h2 | ⟨a0, k0, h2⟩
            · exact Failure.noConfusion h2
            · exact absurd rfl (hf2 _ _ _ h2 a)
        · exact Failure.noConfusion hassert
      · rcases resolveNode_error_shape c.decode (accountNodeProvider c) fuel hb' path s' _ hres
          with h1 | h1 | ⟨s0, p0, h1⟩
        · exact Failure.noConfusion h1
        · exact Failure.noConfusion h1
        · rcases accountNodeProvider_error_shape c s0 p0 _ h1 with h2 | ⟨k0, h2⟩
          · exact Failure.noConfusion h2
          · exact absurd rfl (hf3 _ _ h2 a)
  · rintro ⟨a, hstor, hacc⟩ w hok
    rcases compute_ok_shape c dbg fuel state w hok with ⟨mp, st, hfetch, hfold⟩
    rcases storages_mem_proofTargets state a hstor with ⟨slots, hmem⟩
    rcases foldAccounts_ok_mem c dbg fuel state mp.account_subtree _ _ _ hfold
      (a, slots) hmem with ⟨st0, st1, hp⟩
    rcases processAccount_ok_lookup c dbg fuel state mp.account_subtree st0 (a, slots) st1 hp
      with ⟨acct, hlook⟩
    have hcon : alookup state.accounts a = none := (alookup_eq_none_iff _ _).mpr hacc
    rw [hcon] at hlook
    exact Option.noConfusion hlook

/-- **C7 counterexample.**  A post-state whose only target has an account
record but no multiproof account entry of any kind (the batched multiproof
is entirely empty): the claim's iff requires `compute` to fail with
`MissingAccount`, but it succeeds — the check reads the post-state accounts
map, not the multiproof. -/
theorem compute_missing_account_counterexample :
    (proofTargets state0).map Prod.fst = [[171]]
      ∧ c0.fetchMultiproof (proofTargets state0) = .ok ⟨[], []⟩
      ∧ compute c0 true 5 state0 = .ok [] :=
  ⟨by decide, by decide, by decide⟩

/-- Witness for the amended `MissingAccount` characterization, applied at a
post-state with a storage change for an address without an account record. -/
theorem compute_missing_account_witness :
    (∃ a, a ∈ state1.storages.map Prod.fst ∧ a ∉ state1.accounts.map Prod.fst)
      ∧ (∀ w, compute c0 true 5 state1 ≠ .ok w) :=
  ⟨⟨[171], by decide, by decide⟩,
    (compute_missing_account_characterization c0 true 5 state1
        (fun _ _ h => Except.noConfusion h)
        (fun _ _ _ h => Except.noConfusion h)
        (fun _ _ h => Except.noConfusion h)).2
      ⟨[171], by decide, by decide⟩⟩

/-- **C8.**  Whenever a missing-node provider used by
`next_root_from_proofs` inside `compute` (storage or account closure) cannot
resolve the requested path in the fetched single-target proof, it fails with
`MissingTargetNode` at that path; the error propagates unretried through the
resolution loop, the hash-builder pass, the account loop and `compute`
itself; and a concrete run ends with exactly that error. -/
theorem compute_missing_target_node_propagation (c : Ctx) :
    (∀ (addr : B256) (wit : WitnessMap) (key : Nibbles) (smp : StorageMultiProof),
        c.fetchStorage addr (packPad32 key) = .ok smp →
        alookup smp.subtree key = none →
        storageNodeProvider c addr wit key = .error (.missingTargetNode key))
      ∧ (∀ (wit : WitnessMap) (key : Nibbles) (mp : MultiProof),
        c.fetchAccount (packPad32 key) = .ok mp →
        alookup mp.account_subtree key = none →
        accountNodeProvider c wit key = .error (.missingTargetNode key))
      ∧ (∀ (σ : Type) (provider : σ → Nibbles → Except Failure (Bytes × σ))
          (path : Nibbles) (hb : HashBuilder) (s : σ) (fuel : Nat) (e : Failure),
          provider s path = .error e →
          resolveNode c.decode provider hb path s (fuel + 1) = .error e)
      ∧ (∀ (σ : Type) (provider : σ → Nibbles → Except Failure (Bytes × σ))
          (path : Nibbles) (bh : B256) (rest : TrieNodeMap) (hb : HashBuilder)
          (s : σ) (fuel : Nat) (e : Failure),
          nrCond hb path rest = false →
          resolveNode c.decode provider hb path s fuel = .error e →
          nextRootGo c.decode provider ((path, .hash bh) :: rest) hb s fuel = .error e)
      ∧ (∀ (dbg : Bool) (fuel : Nat) (state : HashedPostState)
          (accountSubtree : ProofEntries) (ts : List (B256 × List B256))
          (st : ComputeSt) (t : B256 × List B256) (e : Failure),
          processAccount c dbg fuel state accountSubtree st t = .error e →
          foldAccounts c dbg fuel state accountSubtree (t :: ts) st = .error e)
      ∧ (∀ (dbg : Bool) (fuel : Nat) (state : HashedPostState) (mp : MultiProof)
          (e : Failure),
          c.fetchMultiproof (proofTargets state) = .ok mp →
          foldAccounts c dbg fuel state mp.account_subtree (proofTargets state)
            ⟨[], [], mp.storages⟩ = .error e →
          compute c dbg fuel state = .error e)
      ∧ compute c1 true 5 state8 = .error (.missingTargetNode [1, 2, 7]) := by
  refine ⟨?_, ?_, ?_, ?_, ?_, ?_, by decide⟩
  · intro addr wit key smp hfetch hlook
    simp [storageNodeProvider, hfetch, hlook]
  · intro wit key mp hfetch hlook
    simp [accountNodeProvider, hfetch, hlook]
  · intro σ provider path hb s fuel e hprov
    simp [resolveNode, hprov]
  · intro σ provider path bh rest hb s fuel e hcond hres
    simp [nextRootGo, hcond, hres]
  · intro dbg fuel state accountSubtree ts st t e hp
    simp [foldAccounts, hp]
  · intro dbg fuel state mp e hfetch hfold
    simp [compute, hfetch, hfold]

/-- Witness for the `MissingTargetNode` propagation: the storage closure's
characterization applied at a concrete unresolvable path. -/
theorem compute_missing_target_node_witness :
    (c1.fetchStorage [171] (packPad32 [1, 2, 7]) = .ok ⟨EMPTY_ROOT_HASH, []⟩)
      ∧ (alookup (⟨EMPTY_ROOT_HASH, []⟩ : StorageMultiProof).subtree [1, 2, 7] = none)
      ∧ storageNodeProvider c1 [171] [] [1, 2, 7] = .error (.missingTargetNode [1, 2, 7]) :=
  ⟨by decide, by decide,
    (compute_missing_target_node_propagation c1).1 [171] [] [1, 2, 7]
      ⟨EMPTY_ROOT_HASH, []⟩ (by decide) (by decide)⟩

/-- **C9 (amended).**  The storage-root consistency check of `compute` is a
`debug_assert_eq!`: when debug assertions are enabled, a mismatch between
the resolved storage root and the root embedded in the account's storage
multiproof aborts the account step with an assertion-class failure, and
execution past the check guarantees the two roots are equal; in release
builds (debug assertions disabled) the check is compiled out and the
computation continues normally past a mismatch. -/
theorem storage_root_assert_characterization (c : Ctx) (fuel : Nat)
    (state : HashedPostState) (accountSubtree : ProofEntries) (st : ComputeSt)
    (t : B256 × List B256) :
    (∀ mpRoot storageRoot st',
        processAccountCore c fuel state accountSubtree st t = .ok (mpRoot, storageRoot, st') →
        mpRoot ≠ storageRoot →
        processAccount c true fuel state accountSubtree st t = .error .assertionFailure)
      ∧ (∀ st', processAccount c true fuel state accountSubtree st t = .ok st' →
        ∃ mpRoot storageRoot st'',
          processAccountCore c fuel state accountSubtree st t = .ok (mpRoot, storageRoot, st'')
            ∧ mpRoot = storageRoot ∧ st'' = st') := by
  constructor
  · intro mpRoot storageRoot st' hcore hne
    unfold processAccount
    rw [hcore]
    simp [hne]
  · intro st' h
    unfold processAccount at h
    split at h
    next e' hcore => exact Except.noConfusion h
    next mpRoot storageRoot st'' hcore =>
      split at h
      next => exact Except.noConfusion h
      next hcond =>
        injection h with h
        refine ⟨mpRoot, storageRoot, st'', hcore, ?_, h⟩
        by_contra hne
        exact hcond ⟨rfl, hne⟩

/-- **C9 counterexample.**  A concrete mismatch (embedded root `[1]` against
resolved empty root): with debug assertions disabled the whole computation
continues to success, contradicting the claim that the mismatch always fails
loudly; enabling debug assertions surfaces the assertion failure. -/
theorem storage_root_assert_counterexample :
    processAccountCore c2 5 state0 [] ⟨[], [], [([171], ⟨[1], []⟩)]⟩ ([171], [])
        = .ok ([1], EMPTY_ROOT_HASH, ⟨[], [([10, 11], NodeVal.value [100, 1])], []⟩)
      ∧ ([1] : B256) ≠ EMPTY_ROOT_HASH
      ∧ compute c2 false 5 state0 = .ok []
      ∧ compute c2 true 5 state0 = .error .assertionFailure :=
  ⟨by decide, by decide, by decide, by decide⟩

/-- Witness for the assertion characterization: a matching-root account step
passes with debug assertions enabled, and the theorem recovers the root
equality from that success. -/
theorem storage_root_assert_witness :
    (processAccount c0 true 5 state0 [] ⟨[], [], []⟩ ([171], [])
        = .ok ⟨[], [([10, 11], NodeVal.value (100 :: EMPTY_ROOT_HASH))], []⟩)
      ∧ ∃ mpRoot storageRoot st'',
          processAccountCore c0 5 state0 [] ⟨[], [], []⟩ ([171], [])
              = .ok (mpRoot, storageRoot, st'')
            ∧ mpRoot = storageRoot
            ∧ st'' = ⟨[], [([10, 11], NodeVal.value (100 :: EMPTY_ROOT_HASH))], []⟩ :=
  ⟨by decide,
    (storage_root_assert_characterization c0 5 state0 [] ⟨[], [], []⟩ ([171], [])).2
      _ (by decide)⟩

end RethWitness
